import Mathlib

/-!
Verification of the `almost` floating-point comparison library.

The library compares IEEE-754 binary floating point numbers (32- and 64-bit)
for approximate equality using a relative tolerance, with a rescale-and-retry
strategy when one operand is infinite.  We embed the code shallowly:

* a float of a given format is its bit pattern, a `Nat` (fields are read with
  explicit `/`, `%` and powers of two, mirroring the source's mask operations);
* the numeric value of a finite pattern is an exact rational, represented as
  an unnormalized integer fraction `Q2 = Int × Nat` so that every operation
  is executable with plain integer arithmetic (the bridge to `ℚ` is the
  proof-side function `qv`);
* the float operations used by the source (`<`, `>`, `==`, `-`, `*`,
  `is_nan`, `is_infinite`, `abs`) are defined from the IEEE-754 semantics,
  with `-` and `*` performing exact fraction arithmetic followed by
  round-to-nearest-even (`fround`);
* the mutually recursive pair `eq_with_tol_impl` / `handle_not_finite` from
  `src/imp.rs` is embedded with an explicit fuel parameter
  (`eq_with_tol_fuel`); the entry point uses fuel 2, and fuel-independence
  beyond 2 is proved (claim C9).
-/

set_option maxRecDepth 8000

namespace Almost

/-- A binary floating point format: total bit width and number of explicit
significand bits.  `f32 = ⟨32, 23⟩`, `f64 = ⟨64, 52⟩` (see the
`impl_equals!` macro instantiations in `src/imp.rs`). -/
structure FpFormat where
  totalBits : Nat
  sigBits : Nat
deriving DecidableEq

def F32 : FpFormat := ⟨32, 23⟩

def F64 : FpFormat := ⟨64, 52⟩

/-- Well-formedness of a format: at least one significand bit and at least
three exponent bits.  Both real formats satisfy this by `decide`. -/
def goodF (F : FpFormat) : Prop := 1 ≤ F.sigBits ∧ F.sigBits + 4 ≤ F.totalBits

/-- `SIGNIFICAND_SIZE` constant from `src/imp.rs`. -/
def SIGNIFICAND_SIZE (F : FpFormat) : Nat := F.sigBits

/-- `EXPONENT_SIZE = size_of::<fp>() * 8 - SIGNIFICAND_SIZE - 1` from `src/imp.rs`. -/
def EXPONENT_SIZE (F : FpFormat) : Nat := F.totalBits - F.sigBits - 1

/-- `EXPONENT_MASK = ((1 << EXPONENT_SIZE) - 1) << SIGNIFICAND_SIZE` from `src/imp.rs`. -/
def EXPONENT_MASK (F : FpFormat) : Nat :=
  ((1 <<< EXPONENT_SIZE F) - 1) <<< SIGNIFICAND_SIZE F

/-- `EXPONENT_BIAS = (1 << (EXPONENT_SIZE - 1)) - 1` from `src/imp.rs`. -/
def EXPONENT_BIAS (F : FpFormat) : Nat :=
  (1 <<< (EXPONENT_SIZE F - 1)) - 1

/-- `SIGN_BIT = 1 << (size_of::<fp>() * 8 - 1)` from `src/imp.rs`. -/
def SIGN_BIT (F : FpFormat) : Nat := 1 <<< (F.totalBits - 1)

/-- The all-ones exponent field value (reserved for infinities and NaNs). -/
def allOnes (F : FpFormat) : Nat := 2 ^ EXPONENT_SIZE F - 1

/-- Sign field of a bit pattern (bit `totalBits - 1`): 0 or 1. -/
def signF (F : FpFormat) (a : Nat) : Nat := a / 2 ^ (F.totalBits - 1) % 2

/-- Exponent field of a bit pattern (bits `sigBits .. totalBits - 2`),
i.e. `(a & EXPONENT_MASK) >> SIGNIFICAND_SIZE`. -/
def expF (F : FpFormat) (a : Nat) : Nat := a / 2 ^ F.sigBits % 2 ^ EXPONENT_SIZE F

/-- Significand (fraction) field of a bit pattern (low `sigBits` bits). -/
def fracF (F : FpFormat) (a : Nat) : Nat := a % 2 ^ F.sigBits

/-- `abs(f) = from_bits(f.to_bits() & !SIGN_BIT)` from `src/imp.rs`: clear the
sign bit.  Since `SIGN_BIT` is the top bit of the width, on `w`-bit values
this is reduction mod `2^(w-1)`. -/
def abs (F : FpFormat) (f : Nat) : Nat := f % 2 ^ (F.totalBits - 1)

/-- An exact rational as an unnormalized fraction `numerator / denominator`;
the denominator is positive in every use.  No normalization (gcd) is ever
performed, keeping all arithmetic kernel-computable. -/
abbrev Q2 : Type := Int × Nat

/-- Proof-side value of a fraction in `ℚ`. -/
def qv (q : Q2) : ℚ := (q.1 : ℚ) / (q.2 : ℚ)

/-- `2^e` as a fraction, via kernel-friendly shifts. -/
def pow2p (e : Int) : Q2 :=
  if 0 ≤ e then (((1 <<< e.toNat : Nat) : Int), 1) else (1, 1 <<< (-e).toNat)

/-- Fraction comparison `≤` by cross multiplication (positive denominators). -/
def q2Le (a b : Q2) : Bool := decide (a.1 * (b.2 : Int) ≤ b.1 * (a.2 : Int))

/-- Fraction comparison `<` by cross multiplication (positive denominators). -/
def q2Lt (a b : Q2) : Bool := decide (a.1 * (b.2 : Int) < b.1 * (a.2 : Int))

/-- Fraction equality by cross multiplication (positive denominators). -/
def q2Eq (a b : Q2) : Bool := decide (a.1 * (b.2 : Int) = b.1 * (a.2 : Int))

/-- Exact fraction multiplication. -/
def q2Mul (a b : Q2) : Q2 := (a.1 * b.1, a.2 * b.2)

/-- Exact fraction subtraction. -/
def q2Sub (a b : Q2) : Q2 := (a.1 * (b.2 : Int) - b.1 * (a.2 : Int), a.2 * b.2)

/-- Fraction negation. -/
def q2Neg (a : Q2) : Q2 := (-a.1, a.2)

/-- Minimum (subnormal quantum) exponent of the format:
`1 - EXPONENT_BIAS - SIGNIFICAND_SIZE` (`-149` for f32, `-1074` for f64). -/
def minExp (F : FpFormat) : Int :=
  1 - (EXPONENT_BIAS F : Int) - (F.sigBits : Int)

/-- Exact value of a bit pattern, assuming it is finite (exponent field below
`allOnes`); junk (the same formula) otherwise, always guarded by
classification. -/
def fval (F : FpFormat) (a : Nat) : Q2 :=
  let n : Int :=
    if expF F a = 0 then (fracF F a : Int) else ((2 ^ F.sigBits + fracF F a : Nat) : Int)
  let e : Int :=
    if expF F a = 0 then minExp F else (expF F a : Int) - EXPONENT_BIAS F - F.sigBits
  q2Mul (if signF F a = 1 then -n else n, 1) (pow2p e)

/-- Class of a bit pattern: NaN, signed infinity, or a finite value. -/
inductive FpClass where
  | nan : FpClass
  | inf : Bool → FpClass
  | fin : Q2 → FpClass
deriving DecidableEq

/-- IEEE-754 classification of a bit pattern. -/
def classify (F : FpFormat) (a : Nat) : FpClass :=
  if expF F a = allOnes F then
    (if fracF F a = 0 then .inf (signF F a == 1) else .nan)
  else .fin (fval F a)

/-- `f.is_nan()`: all-ones exponent field with nonzero significand field. -/
def isNaNb (F : FpFormat) (a : Nat) : Bool :=
  (expF F a == allOnes F) && !(fracF F a == 0)

/-- `f.is_infinite()`: all-ones exponent field with zero significand field. -/
def isInfb (F : FpFormat) (a : Nat) : Bool :=
  (expF F a == allOnes F) && (fracF F a == 0)

/-- `f.is_finite()`: exponent field below all-ones. -/
def isFinb (F : FpFormat) (a : Nat) : Bool := !(expF F a == allOnes F)

/-- A power of two strictly above every finite magnitude of the format,
standing for the value of infinity in comparisons. -/
def BIGQ (F : FpFormat) : Q2 := pow2p ((2 ^ EXPONENT_SIZE F : Nat) : Int)

/-- Extended value of a non-NaN bit pattern: `±BIGQ` for infinities, the
exact value for finite patterns.  Comparisons of extended values agree with
IEEE-754 comparisons on non-NaN operands. -/
def xval (F : FpFormat) (a : Nat) : Q2 :=
  if isInfb F a then (if signF F a = 1 then q2Neg (BIGQ F) else BIGQ F) else fval F a

/-- IEEE-754 `<` on bit patterns: false if either operand is NaN, otherwise
comparison of extended values. -/
def fltb (F : FpFormat) (a b : Nat) : Bool :=
  !isNaNb F a && !isNaNb F b && q2Lt (xval F a) (xval F b)

/-- IEEE-754 `>` on bit patterns. -/
def fgtb (F : FpFormat) (a b : Nat) : Bool := fltb F b a

/-- IEEE-754 `==` on bit patterns: false if either operand is NaN, otherwise
equality of extended values (`-0 == +0`; infinities equal when of the same
sign). -/
def feqb (F : FpFormat) (a b : Nat) : Bool :=
  !isNaNb F a && !isNaNb F b && q2Eq (xval F a) (xval F b)

/-- Round a fraction (positive denominator) to the nearest integer, ties to
even, using Euclidean division (`Int.ediv` floors for a positive divisor). -/
def rne (q : Q2) : Int :=
  if 2 * Int.emod q.1 (q.2 : Int) < (q.2 : Int) then Int.ediv q.1 (q.2 : Int)
  else if (q.2 : Int) < 2 * Int.emod q.1 (q.2 : Int) then Int.ediv q.1 (q.2 : Int) + 1
  else if Int.emod (Int.ediv q.1 (q.2 : Int)) 2 = 0 then Int.ediv q.1 (q.2 : Int)
  else Int.ediv q.1 (q.2 : Int) + 1

/-- Binary search step for `⌊log₂ q⌋`: maintains `2^lo ≤ q < 2^hi`. -/
def elogGo (q : Q2) : Nat → Int → Int → Int
  | 0, lo, _ => lo
  | fuel + 1, lo, hi =>
    if hi ≤ lo + 1 then lo
    else if q2Le (pow2p (Int.ediv (lo + hi) 2)) q then
      elogGo q fuel (Int.ediv (lo + hi) 2) hi
    else elogGo q fuel lo (Int.ediv (lo + hi) 2)

/-- Exponent search range of the format: covers every product or difference
of two finite magnitudes. -/
def elogBound (F : FpFormat) : Int :=
  2 * ((2 ^ EXPONENT_SIZE F : Nat) + F.sigBits : Nat) + 4

/-- `⌊log₂ q⌋` for a positive fraction `q` in the format's range
`[2^(-elogBound), 2^elogBound)`, by binary search. -/
def elog (F : FpFormat) (q : Q2) : Int :=
  elogGo q (F.totalBits + 64) (-(elogBound F)) (elogBound F)

/-- Quantum exponent used when rounding the magnitude `m`: the binade's
quantum `elog - sigBits`, clamped below at the subnormal quantum `minExp`. -/
def rqe (F : FpFormat) (m : Q2) : Int := max (elog F m - F.sigBits) (minExp F)

/-- Scaled magnitude rounded to an integer count of quanta (ties to even). -/
def rn (F : FpFormat) (m : Q2) : Nat := (rne (q2Mul m (pow2p (-rqe F m)))).toNat

/-- Encode a quantum count `n1` at quantum exponent `qe1` as a bit pattern:
subnormal when `n1` is below the implicit bit, the infinity pattern
(`EXPONENT_MASK`) when the biased exponent reaches the reserved field, and a
normal pattern otherwise. -/
def rEncode (F : FpFormat) (n1 : Nat) (qe1 : Int) : Nat :=
  if n1 < 2 ^ F.sigBits then n1
  else if (allOnes F : Int) ≤ qe1 + F.sigBits + EXPONENT_BIAS F then EXPONENT_MASK F
  else (qe1 + F.sigBits + EXPONENT_BIAS F).toNat * 2 ^ F.sigBits + (n1 - 2 ^ F.sigBits)

/-- Round-to-nearest-even of a positive fraction `m` to a (sign-free) bit
pattern of format `F`; returns the infinity pattern (`EXPONENT_MASK`) on
overflow.  Standard algorithm: find the binade of `m`, clamp the quantum
exponent at the subnormal quantum `minExp`, round the scaled magnitude to an
integer (ties to even), renormalize a possible carry, and encode. -/
def roundMag (F : FpFormat) (m : Q2) : Nat :=
  if rn F m = 0 then 0
  else if 2 ^ (F.sigBits + 1) ≤ rn F m then rEncode F (rn F m / 2) (rqe F m + 1)
  else rEncode F (rn F m) (rqe F m)

/-- Round an exact fraction to a bit pattern of format `F`
(round-to-nearest-even, the IEEE-754 default mode).  An exact zero rounds to
`+0`; a negative fraction rounds to the sign-flipped rounding of its
magnitude. -/
def fround (F : FpFormat) (q : Q2) : Nat :=
  if q.1 = 0 then 0
  else if 0 < q.1 then roundMag F q
  else SIGN_BIT F + roundMag F (q2Neg q)

/-- A (quiet) NaN bit pattern of the format. -/
def NAN_PAT (F : FpFormat) : Nat := EXPONENT_MASK F + 1

/-- IEEE-754 subtraction on bit patterns (round to nearest, ties to even).
In this development it is only ever applied to finite operands (the finite
path of `eq_with_tol_impl`), but it is defined totally. -/
def fsub (F : FpFormat) (a b : Nat) : Nat :=
  match classify F a, classify F b with
  | .nan, _ => NAN_PAT F
  | _, .nan => NAN_PAT F
  | .inf s, .inf t => if s = t then NAN_PAT F
      else if s then SIGN_BIT F + EXPONENT_MASK F else EXPONENT_MASK F
  | .inf s, .fin _ => if s then SIGN_BIT F + EXPONENT_MASK F else EXPONENT_MASK F
  | .fin _, .inf t => if t then EXPONENT_MASK F else SIGN_BIT F + EXPONENT_MASK F
  | .fin x, .fin y => fround F (q2Sub x y)

/-- IEEE-754 multiplication on bit patterns (round to nearest, ties to even). -/
def fmul (F : FpFormat) (a b : Nat) : Nat :=
  match classify F a, classify F b with
  | .nan, _ => NAN_PAT F
  | _, .nan => NAN_PAT F
  | .inf s, .inf t => if s = t then EXPONENT_MASK F else SIGN_BIT F + EXPONENT_MASK F
  | .inf s, .fin y => if y.1 = 0 then NAN_PAT F
      else if s = decide (y.1 < 0) then EXPONENT_MASK F
      else SIGN_BIT F + EXPONENT_MASK F
  | .fin x, .inf t => if x.1 = 0 then NAN_PAT F
      else if t = decide (x.1 < 0) then EXPONENT_MASK F
      else SIGN_BIT F + EXPONENT_MASK F
  | .fin x, .fin y => fround F (q2Mul x y)

/-- Bit pattern of `core::fp::MAX` (largest finite value): exponent field
`allOnes - 1`, significand field all ones. -/
def MAX_BITS (F : FpFormat) : Nat :=
  (allOnes F - 1) * 2 ^ F.sigBits + (2 ^ F.sigBits - 1)

/-- Bit pattern of `core::fp::MIN_POSITIVE` (smallest positive normal value):
exponent field 1, significand field 0. -/
def MIN_POSITIVE_BITS (F : FpFormat) : Nat := 2 ^ F.sigBits

/-- Bit pattern of `core::fp::INFINITY`: all-ones exponent field, zero
significand field — numerically equal to `EXPONENT_MASK`. -/
def INFINITY_BITS (F : FpFormat) : Nat := EXPONENT_MASK F

/-- The substituted left operand of the rescale-and-retry step
(`src/imp.rs` lines 64–67):
`new_lhs = from_bits((MAX.to_bits() & EXPONENT_MASK) | (lhs.to_bits() & SIGN_BIT))`,
i.e. MAX's exponent field (its significand bits are dropped by the mask) with
the sign bit copied from `lhs`. -/
def rescaled_lhs (F : FpFormat) (lhs : Nat) : Nat :=
  expF F (MAX_BITS F) * 2 ^ F.sigBits + signF F lhs * SIGN_BIT F

/-- `rhs_rescale = from_bits((EXPONENT_BIAS - 1) << SIGNIFICAND_SIZE)` from
`src/imp.rs` line 69: the bit pattern of the power of two `2^(-1)`. -/
def RHS_RESCALE_BITS (F : FpFormat) : Nat :=
  (EXPONENT_BIAS F - 1) <<< SIGNIFICAND_SIZE F

/-- The rescale-and-retry tail of `handle_not_finite` (`src/imp.rs` lines
57–73), after the swap has made the first operand the infinite one:
return `false` for a zero/subnormal finite operand, otherwise retry on the
rescaled pair. -/
def rescale_retry (F : FpFormat) (retry : Nat → Nat → Nat → Bool)
    (lhs rhs tol : Nat) : Bool :=
  -- `(rbits & EXPONENT_MASK) == 0`: zero or subnormal
  if expF F rhs = 0 then false
  else retry (rescaled_lhs F lhs) (fmul F rhs (RHS_RESCALE_BITS F)) tol

/-- `handle_not_finite` from `src/imp.rs` (lines 45–74), parameterized by the
recursive re-entry `retry` into the tolerance comparison.  The source's
`let (lhs, rhs) = if lhs.is_infinite() { (lhs, rhs) } else { (rhs, lhs) }`
swap appears as the final if/else. -/
def handle_not_finite (F : FpFormat) (retry : Nat → Nat → Nat → Bool)
    (lhs rhs tol : Nat) : Bool :=
  if isNaNb F lhs || isNaNb F rhs then false
  else if isInfb F lhs && isInfb F rhs then feqb F lhs rhs
  else if isInfb F lhs then rescale_retry F retry lhs rhs tol
  else rescale_retry F retry rhs lhs tol

/-- `let scale = if left_mag > right_mag { left_mag } else { right_mag }`
from the finite path of `src/imp.rs`. -/
def scale1 (F : FpFormat) (lhs rhs : Nat) : Nat :=
  if fgtb F (abs F lhs) (abs F rhs) then abs F lhs else abs F rhs

/-- The rebinding `let scale = if scale > MIN_POSITIVE { scale } else
{ MIN_POSITIVE }` from the finite path of `src/imp.rs`. -/
def scale2 (F : FpFormat) (lhs rhs : Nat) : Nat :=
  if fgtb F (scale1 F lhs rhs) (MIN_POSITIVE_BITS F) then scale1 F lhs rhs
  else MIN_POSITIVE_BITS F

/-- `eq_with_tol_impl` from `src/imp.rs` (lines 20–41) with an explicit fuel
bounding the recursion through `handle_not_finite`; fuel 2 is always enough
(claim C9).  The finite path computes
`abs(lhs - rhs) < tol * scale` with the clamped scale `scale2`. -/
def eq_with_tol_fuel (F : FpFormat) : Nat → Nat → Nat → Nat → Bool
  | 0, _, _, _ => false
  | fuel + 1, lhs, rhs, tol =>
    if !(fltb F (abs F lhs) (INFINITY_BITS F) && fltb F (abs F rhs) (INFINITY_BITS F)) then
      handle_not_finite F (eq_with_tol_fuel F fuel) lhs rhs tol
    else
      fltb F (abs F (fsub F lhs rhs)) (fmul F tol (scale2 F lhs rhs))

/-- `eq_with_tol_impl(lhs, rhs, tol)`: entry point of the comparison. -/
def eq_with_tol_impl (F : FpFormat) (lhs rhs tol : Nat) : Bool :=
  eq_with_tol_fuel F 2 lhs rhs tol

/-- `F64_TOLERANCE = 0.000000014901161193847656_f64` from `src/lib.rs`:
the bit pattern of the nearest double to that decimal literal
(`1.4901161193847656e-8 = 14901161193847656 / 10^24`). -/
def F64_TOLERANCE : Nat := fround F64 (14901161193847656, 10 ^ 24)

/-- `F32_TOLERANCE = 0.00034526698_f32` from `src/lib.rs`: the bit pattern of
the nearest single to that decimal literal (`34526698 / 10^11`). -/
def F32_TOLERANCE : Nat := fround F32 (34526698, 10 ^ 11)

/-- `almost_equals_with` of the `AlmostEqual` impls in `src/lib.rs` (release
build: the debug-only tolerance assertions are skipped). -/
def almost_equals_with (F : FpFormat) (lhs rhs tol : Nat) : Bool :=
  eq_with_tol_impl F lhs rhs tol

/-- `almost::equal` for `f64`: default tolerance. -/
def almost_equals64 (lhs rhs : Nat) : Bool :=
  eq_with_tol_impl F64 lhs rhs F64_TOLERANCE

/-- `almost::equal` for `f32`: default tolerance. -/
def almost_equals32 (lhs rhs : Nat) : Bool :=
  eq_with_tol_impl F32 lhs rhs F32_TOLERANCE

/-- `almost_zero_with(v, tol) = abs(v) < tol` from `src/lib.rs` (release
build: the debug-only positivity assertion is skipped). -/
def almost_zero_with (F : FpFormat) (v tol : Nat) : Bool :=
  fltb F (abs F v) tol

/-- `almost::zero` for `f64`: default tolerance, absolute comparison. -/
def almost_zero64 (v : Nat) : Bool := almost_zero_with F64 v F64_TOLERANCE

/-- `almost::zero` for `f32`: default tolerance, absolute comparison. -/
def almost_zero32 (v : Nat) : Bool := almost_zero_with F32 v F32_TOLERANCE

/-- Bit pattern of `core::f32::EPSILON = 2^(-23)` (exponent field
`127 - 23 = 104`). -/
def EPSILON_32_BITS : Nat := 104 * 2 ^ 23

/-- Negation of a float: flip the sign bit, leaving every other bit
unchanged (claim C10's definition of `-x`). -/
def fneg (F : FpFormat) (a : Nat) : Nat :=
  (1 - signF F a) * SIGN_BIT F + a % SIGN_BIT F

/-!  ### Format arithmetic -/

theorem goodF_F32 : goodF F32 := by constructor <;> decide

theorem goodF_F64 : goodF F64 := by constructor <;> decide

theorem shiftLeft_eq_pow (a b : Nat) : a <<< b = a * 2 ^ b := Nat.shiftLeft_eq a b

theorem EXPONENT_MASK_eq (F : FpFormat) :
    EXPONENT_MASK F = (2 ^ EXPONENT_SIZE F - 1) * 2 ^ F.sigBits := by
  simp [EXPONENT_MASK, SIGNIFICAND_SIZE, shiftLeft_eq_pow]

theorem SIGN_BIT_eq (F : FpFormat) : SIGN_BIT F = 2 ^ (F.totalBits - 1) := by
  simp [SIGN_BIT, shiftLeft_eq_pow]

theorem EXPONENT_BIAS_eq (F : FpFormat) :
    EXPONENT_BIAS F = 2 ^ (EXPONENT_SIZE F - 1) - 1 := by
  simp [EXPONENT_BIAS, shiftLeft_eq_pow]

theorem goodF.sig_pos {F : FpFormat} (h : goodF F) : 1 ≤ F.sigBits := h.1

theorem goodF.eb_ge {F : FpFormat} (h : goodF F) : 3 ≤ EXPONENT_SIZE F := by
  have := h.2; unfold EXPONENT_SIZE; omega

theorem goodF.w1_eq {F : FpFormat} (h : goodF F) :
    F.totalBits - 1 = F.sigBits + EXPONENT_SIZE F := by
  have := h.2; unfold EXPONENT_SIZE; omega

theorem goodF.bias_eq {F : FpFormat} (h : goodF F) :
    2 * EXPONENT_BIAS F + 1 = allOnes F := by
  rw [EXPONENT_BIAS_eq, allOnes]
  have h3 := h.eb_ge
  obtain ⟨k, hk⟩ : ∃ k, EXPONENT_SIZE F = k + 1 := ⟨EXPONENT_SIZE F - 1, by omega⟩
  rw [hk]
  simp [pow_succ]
  have : 1 ≤ 2 ^ k := Nat.one_le_two_pow
  omega

theorem goodF.bias_ge {F : FpFormat} (h : goodF F) : 3 ≤ EXPONENT_BIAS F := by
  rw [EXPONENT_BIAS_eq]
  have h3 := h.eb_ge
  have : 2 ^ 2 ≤ 2 ^ (EXPONENT_SIZE F - 1) :=
    Nat.pow_le_pow_right (by omega) (by omega)
  omega

theorem goodF.allOnes_lt {F : FpFormat} (_h : goodF F) :
    allOnes F < 2 ^ EXPONENT_SIZE F := by
  unfold allOnes
  have : 1 ≤ 2 ^ EXPONENT_SIZE F := Nat.one_le_two_pow
  omega

theorem goodF.allOnes_pos {F : FpFormat} (h : goodF F) : 0 < allOnes F := by
  unfold allOnes
  have : 2 ^ 3 ≤ 2 ^ EXPONENT_SIZE F := Nat.pow_le_pow_right (by omega) h.eb_ge
  omega

/-!  ### Bit-field lemmas -/

theorem expF_lt (F : FpFormat) (a : Nat) : expF F a < 2 ^ EXPONENT_SIZE F :=
  Nat.mod_lt _ (Nat.pos_pow_of_pos _ (by omega))

theorem fracF_lt (F : FpFormat) (a : Nat) : fracF F a < 2 ^ F.sigBits :=
  Nat.mod_lt _ (Nat.pos_pow_of_pos _ (by omega))

theorem signF_lt (F : FpFormat) (a : Nat) : signF F a < 2 :=
  Nat.mod_lt _ (by omega)

/-- Exponent field of the composite pattern `s·2^(w-1) + E·2^sig + f`. -/
theorem expF_pat {F : FpFormat} (hF : goodF F) {s E f : Nat}
    (hE : E < 2 ^ EXPONENT_SIZE F) (hf : f < 2 ^ F.sigBits) :
    expF F (s * 2 ^ (F.totalBits - 1) + E * 2 ^ F.sigBits + f) = E := by
  unfold expF
  rw [hF.w1_eq, pow_add]
  have h1 : s * (2 ^ F.sigBits * 2 ^ EXPONENT_SIZE F) + E * 2 ^ F.sigBits + f
      = 2 ^ F.sigBits * (s * 2 ^ EXPONENT_SIZE F + E) + f := by ring
  rw [h1, Nat.mul_add_div (Nat.pos_pow_of_pos _ (by omega)),
    Nat.div_eq_of_lt hf, Nat.add_zero]
  have h2 : s * 2 ^ EXPONENT_SIZE F + E = 2 ^ EXPONENT_SIZE F * s + E := by ring
  rw [h2, Nat.mul_add_mod, Nat.mod_eq_of_lt hE]

/-- Significand field of the composite pattern. -/
theorem fracF_pat {F : FpFormat} (hF : goodF F) {s E f : Nat}
    (hf : f < 2 ^ F.sigBits) :
    fracF F (s * 2 ^ (F.totalBits - 1) + E * 2 ^ F.sigBits + f) = f := by
  unfold fracF
  rw [hF.w1_eq, pow_add]
  have h1 : s * (2 ^ F.sigBits * 2 ^ EXPONENT_SIZE F) + E * 2 ^ F.sigBits + f
      = 2 ^ F.sigBits * (s * 2 ^ EXPONENT_SIZE F + E) + f := by ring
  rw [h1, Nat.mul_add_mod, Nat.mod_eq_of_lt hf]

/-- The sign-free part of a composite pattern is below `2^(w-1)` when its
fields are in range. -/
theorem pat_lt_signBit {F : FpFormat} (hF : goodF F) {E f : Nat}
    (hE : E < 2 ^ EXPONENT_SIZE F) (hf : f < 2 ^ F.sigBits) :
    E * 2 ^ F.sigBits + f < 2 ^ (F.totalBits - 1) := by
  rw [hF.w1_eq, pow_add]
  have h1 : E * 2 ^ F.sigBits + f < (E + 1) * 2 ^ F.sigBits := by
    have h2 : (E + 1) * 2 ^ F.sigBits = E * 2 ^ F.sigBits + 2 ^ F.sigBits := by ring
    omega
  have h3 : (E + 1) * 2 ^ F.sigBits ≤ 2 ^ EXPONENT_SIZE F * 2 ^ F.sigBits :=
    Nat.mul_le_mul_right _ hE
  rw [Nat.mul_comm (2 ^ F.sigBits)]
  omega

/-- Sign field of the composite pattern. -/
theorem signF_pat {F : FpFormat} (hF : goodF F) {s E f : Nat} (hs : s < 2)
    (hE : E < 2 ^ EXPONENT_SIZE F) (hf : f < 2 ^ F.sigBits) :
    signF F (s * 2 ^ (F.totalBits - 1) + E * 2 ^ F.sigBits + f) = s := by
  unfold signF
  have hlt : E * 2 ^ F.sigBits + f < 2 ^ (F.totalBits - 1) :=
    pat_lt_signBit hF hE hf
  rw [Nat.add_assoc, Nat.mul_comm s,
    Nat.mul_add_div (Nat.pos_pow_of_pos _ (by omega)),
    Nat.div_eq_of_lt hlt, Nat.add_zero, Nat.mod_eq_of_lt hs]

theorem expF_abs (F : FpFormat) (hF : goodF F) (a : Nat) :
    expF F (abs F a) = expF F a := by
  unfold expF abs
  rw [hF.w1_eq, pow_add, Nat.mod_mul_right_div_self,
    Nat.mod_mod_of_dvd _ (dvd_refl _)]

theorem fracF_abs (F : FpFormat) (hF : goodF F) (a : Nat) :
    fracF F (abs F a) = fracF F a := by
  unfold fracF abs
  rw [hF.w1_eq, pow_add]
  exact Nat.mod_mod_of_dvd _ ⟨2 ^ EXPONENT_SIZE F, by ring⟩

theorem signF_abs (F : FpFormat) (a : Nat) : signF F (abs F a) = 0 := by
  unfold signF abs
  rw [Nat.div_eq_of_lt (Nat.mod_lt _ (Nat.pos_pow_of_pos _ (by omega)))]

theorem isNaNb_abs (F : FpFormat) (hF : goodF F) (a : Nat) :
    isNaNb F (abs F a) = isNaNb F a := by
  unfold isNaNb
  rw [expF_abs F hF, fracF_abs F hF]

theorem isInfb_abs (F : FpFormat) (hF : goodF F) (a : Nat) :
    isInfb F (abs F a) = isInfb F a := by
  unfold isInfb
  rw [expF_abs F hF, fracF_abs F hF]

/-!  ### Fraction layer: bridge to `ℚ` -/

theorem pow2p_num_pos (e : Int) : 0 < (pow2p e).1 := by
  unfold pow2p
  split <;> simp [shiftLeft_eq_pow]

theorem pow2p_den_pos (e : Int) : 0 < (pow2p e).2 := by
  unfold pow2p
  split
  · simp
  · simp [shiftLeft_eq_pow]

theorem qv_pow2p (e : Int) : qv (pow2p e) = (2 : ℚ) ^ e := by
  unfold pow2p qv
  split
  · rename_i h
    simp only [shiftLeft_eq_pow, one_mul]
    push_cast
    rw [div_one, ← zpow_natCast, Int.toNat_of_nonneg h]
  · rename_i h
    simp only [shiftLeft_eq_pow, one_mul]
    push_cast
    rw [← zpow_natCast, Int.toNat_of_nonneg (by omega : (0:Int) ≤ -e), one_div,
      ← zpow_neg, neg_neg]

theorem pow2p_pos (e : Int) : 0 < qv (pow2p e) := by
  rw [qv_pow2p]; positivity

theorem qv_den_cast_pos {q : Q2} (h : 0 < q.2) : (0 : ℚ) < (q.2 : ℚ) := by
  exact_mod_cast h

theorem q2Le_iff {a b : Q2} (ha : 0 < a.2) (hb : 0 < b.2) :
    q2Le a b = true ↔ qv a ≤ qv b := by
  unfold q2Le qv
  rw [decide_eq_true_iff, div_le_div_iff (qv_den_cast_pos ha) (qv_den_cast_pos hb)]
  constructor
  · intro h; exact_mod_cast h
  · intro h; exact_mod_cast h

theorem q2Lt_iff {a b : Q2} (ha : 0 < a.2) (hb : 0 < b.2) :
    q2Lt a b = true ↔ qv a < qv b := by
  unfold q2Lt qv
  rw [decide_eq_true_iff, div_lt_div_iff (qv_den_cast_pos ha) (qv_den_cast_pos hb)]
  constructor
  · intro h; exact_mod_cast h
  · intro h; exact_mod_cast h

theorem q2Eq_iff {a b : Q2} (ha : 0 < a.2) (hb : 0 < b.2) :
    q2Eq a b = true ↔ qv a = qv b := by
  unfold q2Eq qv
  rw [decide_eq_true_iff, div_eq_div_iff (ne_of_gt (qv_den_cast_pos ha))
    (ne_of_gt (qv_den_cast_pos hb))]
  constructor
  · intro h; exact_mod_cast h
  · intro h; exact_mod_cast h

theorem qv_mul {a b : Q2} (ha : 0 < a.2) (hb : 0 < b.2) :
    qv (q2Mul a b) = qv a * qv b := by
  unfold q2Mul qv
  have ha' := ne_of_gt (qv_den_cast_pos ha)
  have hb' := ne_of_gt (qv_den_cast_pos hb)
  push_cast
  field_simp

theorem qv_sub {a b : Q2} (ha : 0 < a.2) (hb : 0 < b.2) :
    qv (q2Sub a b) = qv a - qv b := by
  unfold q2Sub qv
  have ha' := ne_of_gt (qv_den_cast_pos ha)
  have hb' := ne_of_gt (qv_den_cast_pos hb)
  push_cast
  field_simp
  ring

theorem qv_neg (a : Q2) : qv (q2Neg a) = -qv a := by
  unfold q2Neg qv
  push_cast
  ring

theorem q2Mul_den_pos {a b : Q2} (ha : 0 < a.2) (hb : 0 < b.2) :
    0 < (q2Mul a b).2 := Nat.mul_pos ha hb

theorem q2Sub_den_pos {a b : Q2} (ha : 0 < a.2) (hb : 0 < b.2) :
    0 < (q2Sub a b).2 := Nat.mul_pos ha hb

theorem q2Neg_den_pos {a : Q2} (ha : 0 < a.2) : 0 < (q2Neg a).2 := ha

theorem qv_pos_iff {q : Q2} (h : 0 < q.2) : 0 < qv q ↔ 0 < q.1 := by
  unfold qv
  rw [div_pos_iff_of_pos_right (qv_den_cast_pos h)]
  exact ⟨fun h2 => by exact_mod_cast h2, fun h2 => by exact_mod_cast h2⟩

theorem qv_eq_zero_iff {q : Q2} (h : 0 < q.2) : qv q = 0 ↔ q.1 = 0 := by
  unfold qv
  rw [div_eq_zero_iff]
  have := ne_of_gt (qv_den_cast_pos h)
  constructor
  · rintro (h2 | h2)
    · exact_mod_cast h2
    · exact absurd h2 this
  · intro h2; left; exact_mod_cast h2

theorem qv_neg_iff {q : Q2} (h : 0 < q.2) : qv q < 0 ↔ q.1 < 0 := by
  unfold qv
  rw [div_neg_iff]
  have hd := qv_den_cast_pos h
  constructor
  · rintro (⟨_, hb⟩ | ⟨ha, _⟩)
    · exact absurd hb (not_lt.mpr (le_of_lt hd))
    · exact_mod_cast ha
  · intro h2
    exact Or.inr ⟨by exact_mod_cast h2, hd⟩

/-!  ### Values of bit patterns -/

/-- Magnitude (absolute value) of a finite bit pattern, in `ℚ`. -/
def magQ (F : FpFormat) (a : Nat) : ℚ :=
  if expF F a = 0 then (fracF F a : ℚ) * (2 : ℚ) ^ minExp F
  else ((2 ^ F.sigBits + fracF F a : Nat) : ℚ) *
    (2 : ℚ) ^ ((expF F a : Int) - EXPONENT_BIAS F - F.sigBits)

theorem fval_den_pos (F : FpFormat) (a : Nat) : 0 < (fval F a).2 := by
  unfold fval q2Mul
  simpa using pow2p_den_pos _

theorem qv_fval (F : FpFormat) (a : Nat) :
    qv (fval F a) = if signF F a = 1 then -(magQ F a) else magQ F a := by
  unfold fval magQ
  split
  all_goals split
  all_goals rw [qv_mul (by norm_num) (pow2p_den_pos _), qv_pow2p]
  all_goals unfold qv
  all_goals push_cast
  all_goals ring

theorem magQ_nonneg (F : FpFormat) (a : Nat) : 0 ≤ magQ F a := by
  unfold magQ
  split <;> positivity

/-- Every finite pattern's magnitude is below `2^(bias+1)` (the overflow
threshold). -/
theorem magQ_lt (F : FpFormat) (hF : goodF F) (a : Nat)
    (h : expF F a ≠ allOnes F) :
    magQ F a < (2 : ℚ) ^ ((EXPONENT_BIAS F : Int) + 1) := by
  unfold magQ
  split
  · rename_i h0
    have h1 : (fracF F a : ℚ) < (2 : ℚ) ^ (F.sigBits : Int) := by
      rw [zpow_natCast]
      exact_mod_cast fracF_lt F a
    calc (fracF F a : ℚ) * (2 : ℚ) ^ minExp F
        < (2 : ℚ) ^ (F.sigBits : Int) * (2 : ℚ) ^ minExp F := by
          have := zpow_pos (two_pos (α := ℚ)) (minExp F)
          exact mul_lt_mul_of_pos_right h1 this
      _ = (2 : ℚ) ^ ((F.sigBits : Int) + minExp F) := by
          rw [← zpow_add₀ (two_ne_zero (α := ℚ))]
      _ ≤ (2 : ℚ) ^ ((EXPONENT_BIAS F : Int) + 1) := by
          apply zpow_le_zpow_right₀ one_le_two
          unfold minExp
          omega
  · rename_i h0
    have hpow : allOnes F + 1 = 2 ^ EXPONENT_SIZE F := by
      unfold allOnes
      have : 1 ≤ 2 ^ EXPONENT_SIZE F := Nat.one_le_two_pow
      omega
    have hE : expF F a < allOnes F := by
      have := expF_lt F a
      omega
    have h1 : ((2 ^ F.sigBits + fracF F a : Nat) : ℚ) < (2 : ℚ) ^ ((F.sigBits : Int) + 1) := by
      have := fracF_lt F a
      have h2 : (2 ^ F.sigBits + fracF F a : Nat) < 2 ^ (F.sigBits + 1) := by
        rw [pow_succ]
        omega
      calc ((2 ^ F.sigBits + fracF F a : Nat) : ℚ) < ((2 ^ (F.sigBits + 1) : Nat) : ℚ) := by
            exact_mod_cast h2
        _ = (2 : ℚ) ^ ((F.sigBits : Int) + 1) := by
            push_cast
            rw [← zpow_natCast]
            push_cast
            ring_nf
    calc ((2 ^ F.sigBits + fracF F a : Nat) : ℚ) *
          (2 : ℚ) ^ ((expF F a : Int) - EXPONENT_BIAS F - F.sigBits)
        < (2 : ℚ) ^ ((F.sigBits : Int) + 1) *
          (2 : ℚ) ^ ((expF F a : Int) - EXPONENT_BIAS F - F.sigBits) := by
          have := zpow_pos (two_pos (α := ℚ)) ((expF F a : Int) - EXPONENT_BIAS F - F.sigBits)
          exact mul_lt_mul_of_pos_right h1 this
      _ = (2 : ℚ) ^ ((F.sigBits : Int) + 1 + ((expF F a : Int) - EXPONENT_BIAS F - F.sigBits)) := by
          rw [← zpow_add₀ (two_ne_zero (α := ℚ))]
      _ ≤ (2 : ℚ) ^ ((EXPONENT_BIAS F : Int) + 1) := by
          apply zpow_le_zpow_right₀ one_le_two
          have hb : 2 * (EXPONENT_BIAS F : Int) + 1 = (allOnes F : Int) := by
            exact_mod_cast hF.bias_eq
          have hEi : (expF F a : Int) < (allOnes F : Int) := by exact_mod_cast hE
          omega

/-- A pattern with nonzero exponent or significand field has positive
magnitude. -/
theorem magQ_pos (F : FpFormat) (a : Nat)
    (h : ¬(expF F a = 0 ∧ fracF F a = 0)) : 0 < magQ F a := by
  unfold magQ
  split
  · rename_i h0
    have hf : fracF F a ≠ 0 := fun hc => h ⟨h0, hc⟩
    have h1 : (0 : ℚ) < (fracF F a : ℚ) := by
      have : 0 < fracF F a := Nat.pos_of_ne_zero hf
      exact_mod_cast this
    have := zpow_pos (two_pos (α := ℚ)) (minExp F)
    positivity
  · have h1 : (0 : ℚ) < ((2 ^ F.sigBits + fracF F a : Nat) : ℚ) := by
      have : 0 < 2 ^ F.sigBits + fracF F a := by positivity
      exact_mod_cast this
    have := zpow_pos (two_pos (α := ℚ)) ((expF F a : Int) - EXPONENT_BIAS F - F.sigBits)
    positivity

/-- A nonzero magnitude is at least the subnormal quantum `2^minExp`. -/
theorem magQ_ge (F : FpFormat) (a : Nat)
    (h : ¬(expF F a = 0 ∧ fracF F a = 0)) :
    (2 : ℚ) ^ minExp F ≤ magQ F a := by
  unfold magQ
  split
  · rename_i h0
    have hf : fracF F a ≠ 0 := fun hc => h ⟨h0, hc⟩
    have h1 : (1 : ℚ) ≤ (fracF F a : ℚ) := by
      have : 1 ≤ fracF F a := Nat.pos_of_ne_zero hf
      exact_mod_cast this
    nlinarith [zpow_pos (two_pos (α := ℚ)) (minExp F)]
  · rename_i h0
    have h1 : (2 : ℚ) ^ (F.sigBits : Int) ≤ ((2 ^ F.sigBits + fracF F a : Nat) : ℚ) := by
      rw [zpow_natCast]
      have : (2 ^ F.sigBits : Nat) ≤ 2 ^ F.sigBits + fracF F a := Nat.le_add_right _ _
      calc (2 : ℚ) ^ F.sigBits = ((2 ^ F.sigBits : Nat) : ℚ) := by push_cast; ring
        _ ≤ _ := by exact_mod_cast this
    have h2 : (2 : ℚ) ^ ((F.sigBits : Int) + ((expF F a : Int) - EXPONENT_BIAS F - F.sigBits))
        ≤ ((2 ^ F.sigBits + fracF F a : Nat) : ℚ) *
          (2 : ℚ) ^ ((expF F a : Int) - EXPONENT_BIAS F - F.sigBits) := by
      rw [zpow_add₀ (two_ne_zero (α := ℚ))]
      have := zpow_pos (two_pos (α := ℚ)) ((expF F a : Int) - EXPONENT_BIAS F - F.sigBits)
      exact mul_le_mul_of_nonneg_right h1 (le_of_lt this)
    refine le_trans ?_ h2
    apply zpow_le_zpow_right₀ one_le_two
    have hE : 1 ≤ expF F a := Nat.pos_of_ne_zero h0
    have : (1 : Int) ≤ (expF F a : Int) := by exact_mod_cast hE
    unfold minExp
    omega

/-- `magQ` reads only the exponent and significand fields, so it is
preserved by `abs`. -/
theorem magQ_abs (F : FpFormat) (hF : goodF F) (a : Nat) :
    magQ F (abs F a) = magQ F a := by
  unfold magQ
  rw [expF_abs F hF, fracF_abs F hF]

theorem qv_fval_abs (F : FpFormat) (hF : goodF F) (a : Nat) :
    qv (fval F (abs F a)) = magQ F a := by
  rw [qv_fval, signF_abs, magQ_abs F hF]
  simp

/-!  ### Classification and comparisons -/

theorem isFinb_iff (F : FpFormat) (a : Nat) :
    isFinb F a = true ↔ expF F a ≠ allOnes F := by
  unfold isFinb
  simp

theorem isNaNb_iff (F : FpFormat) (a : Nat) :
    isNaNb F a = true ↔ expF F a = allOnes F ∧ fracF F a ≠ 0 := by
  unfold isNaNb
  simp

theorem isInfb_iff (F : FpFormat) (a : Nat) :
    isInfb F a = true ↔ expF F a = allOnes F ∧ fracF F a = 0 := by
  unfold isInfb
  simp

theorem isNaNb_false_of_fin {F : FpFormat} {a : Nat}
    (h : expF F a ≠ allOnes F) : isNaNb F a = false := by
  unfold isNaNb
  simp [h]

theorem isInfb_false_of_fin {F : FpFormat} {a : Nat}
    (h : expF F a ≠ allOnes F) : isInfb F a = false := by
  unfold isInfb
  simp [h]

theorem classify_fin {F : FpFormat} {a : Nat} (h : expF F a ≠ allOnes F) :
    classify F a = .fin (fval F a) := by
  unfold classify
  simp [h]

theorem xval_fin {F : FpFormat} {a : Nat} (h : expF F a ≠ allOnes F) :
    xval F a = fval F a := by
  unfold xval
  rw [isInfb_false_of_fin h]
  simp

theorem BIGQ_den_pos (F : FpFormat) : 0 < (BIGQ F).2 := pow2p_den_pos _

theorem qv_BIGQ (F : FpFormat) :
    qv (BIGQ F) = (2 : ℚ) ^ ((2 ^ EXPONENT_SIZE F : Nat) : Int) := qv_pow2p _

theorem xval_den_pos (F : FpFormat) (a : Nat) : 0 < (xval F a).2 := by
  unfold xval
  split
  · split
    · exact q2Neg_den_pos (BIGQ_den_pos F)
    · exact BIGQ_den_pos F
  · exact fval_den_pos F a

/-- Finite magnitudes stay strictly below the stand-in value of infinity. -/
theorem magQ_lt_BIG (F : FpFormat) (hF : goodF F) (a : Nat)
    (h : expF F a ≠ allOnes F) : magQ F a < qv (BIGQ F) := by
  rw [qv_BIGQ]
  refine lt_of_lt_of_le (magQ_lt F hF a h) ?_
  apply zpow_le_zpow_right₀ one_le_two
  rw [EXPONENT_BIAS_eq]
  have h3 := hF.eb_ge
  have h1 : 2 ^ (EXPONENT_SIZE F - 1) ≤ 2 ^ EXPONENT_SIZE F :=
    Nat.pow_le_pow_right (by omega) (by omega)
  have h2 : 1 ≤ 2 ^ (EXPONENT_SIZE F - 1) := Nat.one_le_two_pow
  omega

theorem qv_xval_inf {F : FpFormat} {a : Nat} (h : isInfb F a = true) :
    qv (xval F a) = (if signF F a = 1 then -(qv (BIGQ F)) else qv (BIGQ F)) := by
  unfold xval
  rw [h, if_pos rfl]
  split
  · exact qv_neg _
  · rfl

theorem xval_of_not_inf {F : FpFormat} {a : Nat} (h : isInfb F a = false) :
    xval F a = fval F a := by
  unfold xval
  rw [h]
  simp

theorem fltb_iff (F : FpFormat) (a b : Nat) :
    fltb F a b = true ↔
      isNaNb F a = false ∧ isNaNb F b = false ∧ qv (xval F a) < qv (xval F b) := by
  unfold fltb
  rw [Bool.and_eq_true, Bool.and_eq_true, Bool.not_eq_true', Bool.not_eq_true',
    q2Lt_iff (xval_den_pos F a) (xval_den_pos F b)]
  tauto

theorem feqb_iff (F : FpFormat) (a b : Nat) :
    feqb F a b = true ↔
      isNaNb F a = false ∧ isNaNb F b = false ∧ qv (xval F a) = qv (xval F b) := by
  unfold feqb
  rw [Bool.and_eq_true, Bool.and_eq_true, Bool.not_eq_true', Bool.not_eq_true',
    q2Eq_iff (xval_den_pos F a) (xval_den_pos F b)]
  tauto

/-!  ### Fields of the named constant patterns -/

theorem INFINITY_BITS_fields (F : FpFormat) (hF : goodF F) :
    signF F (INFINITY_BITS F) = 0 ∧ expF F (INFINITY_BITS F) = allOnes F ∧
      fracF F (INFINITY_BITS F) = 0 := by
  have hpat : INFINITY_BITS F = 0 * 2 ^ (F.totalBits - 1) + allOnes F * 2 ^ F.sigBits + 0 := by
    unfold INFINITY_BITS
    rw [EXPONENT_MASK_eq]
    unfold allOnes
    ring
  have hE := hF.allOnes_lt
  have hf : (0 : Nat) < 2 ^ F.sigBits := Nat.pos_pow_of_pos _ (by omega)
  rw [hpat]
  exact ⟨signF_pat hF (by omega) hE hf, expF_pat hF hE hf, fracF_pat hF hf⟩

theorem MIN_POSITIVE_fields (F : FpFormat) (hF : goodF F) :
    signF F (MIN_POSITIVE_BITS F) = 0 ∧ expF F (MIN_POSITIVE_BITS F) = 1 ∧
      fracF F (MIN_POSITIVE_BITS F) = 0 := by
  have hpat : MIN_POSITIVE_BITS F = 0 * 2 ^ (F.totalBits - 1) + 1 * 2 ^ F.sigBits + 0 := by
    unfold MIN_POSITIVE_BITS
    ring
  have hE : (1 : Nat) < 2 ^ EXPONENT_SIZE F := by
    have : 2 ^ 3 ≤ 2 ^ EXPONENT_SIZE F := Nat.pow_le_pow_right (by omega) hF.eb_ge
    omega
  have hf : (0 : Nat) < 2 ^ F.sigBits := Nat.pos_pow_of_pos _ (by omega)
  rw [hpat]
  exact ⟨signF_pat hF (by omega) hE hf, expF_pat hF hE hf, fracF_pat hF hf⟩

theorem MAX_BITS_fields (F : FpFormat) (hF : goodF F) :
    signF F (MAX_BITS F) = 0 ∧ expF F (MAX_BITS F) = allOnes F - 1 ∧
      fracF F (MAX_BITS F) = 2 ^ F.sigBits - 1 := by
  have hpat : MAX_BITS F
      = 0 * 2 ^ (F.totalBits - 1) + (allOnes F - 1) * 2 ^ F.sigBits + (2 ^ F.sigBits - 1) := by
    unfold MAX_BITS
    ring
  have hE : allOnes F - 1 < 2 ^ EXPONENT_SIZE F := by
    have := hF.allOnes_lt
    omega
  have hf : 2 ^ F.sigBits - 1 < 2 ^ F.sigBits := by
    have : (0 : Nat) < 2 ^ F.sigBits := Nat.pos_pow_of_pos _ (by omega)
    omega
  rw [hpat]
  exact ⟨signF_pat hF (by omega) hE hf, expF_pat hF hE hf, fracF_pat hF hf⟩

theorem RHS_RESCALE_fields (F : FpFormat) (hF : goodF F) :
    signF F (RHS_RESCALE_BITS F) = 0 ∧ expF F (RHS_RESCALE_BITS F) = EXPONENT_BIAS F - 1 ∧
      fracF F (RHS_RESCALE_BITS F) = 0 := by
  have hpat : RHS_RESCALE_BITS F
      = 0 * 2 ^ (F.totalBits - 1) + (EXPONENT_BIAS F - 1) * 2 ^ F.sigBits + 0 := by
    unfold RHS_RESCALE_BITS SIGNIFICAND_SIZE
    rw [shiftLeft_eq_pow]
    ring
  have hE : EXPONENT_BIAS F - 1 < 2 ^ EXPONENT_SIZE F := by
    have h1 := hF.bias_eq
    have h2 := hF.allOnes_lt
    omega
  have hf : (0 : Nat) < 2 ^ F.sigBits := Nat.pos_pow_of_pos _ (by omega)
  rw [hpat]
  exact ⟨signF_pat hF (by omega) hE hf, expF_pat hF hE hf, fracF_pat hF hf⟩

theorem rescaled_lhs_fields (F : FpFormat) (hF : goodF F) (lhs : Nat) :
    signF F (rescaled_lhs F lhs) = signF F lhs ∧
      expF F (rescaled_lhs F lhs) = allOnes F - 1 ∧
      fracF F (rescaled_lhs F lhs) = 0 := by
  have hpat : rescaled_lhs F lhs
      = signF F lhs * 2 ^ (F.totalBits - 1) + (allOnes F - 1) * 2 ^ F.sigBits + 0 := by
    unfold rescaled_lhs
    rw [(MAX_BITS_fields F hF).2.1, SIGN_BIT_eq]
    ring
  have hE : allOnes F - 1 < 2 ^ EXPONENT_SIZE F := by
    have := hF.allOnes_lt
    omega
  have hf : (0 : Nat) < 2 ^ F.sigBits := Nat.pos_pow_of_pos _ (by omega)
  rw [hpat]
  exact ⟨signF_pat hF (signF_lt F lhs) hE hf, expF_pat hF hE hf, fracF_pat hF hf⟩

theorem zero_fields (F : FpFormat) : signF F 0 = 0 ∧ expF F 0 = 0 ∧ fracF F 0 = 0 := by
  unfold signF expF fracF
  simp

/-- The guard `abs(x) < INFINITY` of the source holds exactly for the finite
bit patterns. -/
theorem finite_guard_iff (F : FpFormat) (hF : goodF F) (a : Nat) :
    fltb F (abs F a) (INFINITY_BITS F) = true ↔ isFinb F a = true := by
  obtain ⟨hs, he, hf⟩ := INFINITY_BITS_fields F hF
  have hnanInf : isNaNb F (INFINITY_BITS F) = false := by
    unfold isNaNb
    simp [he, hf]
  have hinfInf : isInfb F (INFINITY_BITS F) = true := by
    unfold isInfb
    simp [he, hf]
  rw [fltb_iff, isFinb_iff]
  constructor
  · rintro ⟨hna, -, hlt⟩
    intro hc
    rw [isNaNb_abs F hF] at hna
    by_cases hfr : fracF F a = 0
    · have hinfa : isInfb F (abs F a) = true := by
        rw [isInfb_abs F hF, isInfb_iff]
        exact ⟨hc, hfr⟩
      rw [qv_xval_inf hinfa, qv_xval_inf hinfInf, signF_abs, hs] at hlt
      simp at hlt
    · have hn : isNaNb F a = true := (isNaNb_iff F a).mpr ⟨hc, hfr⟩
      rw [hn] at hna
      simp at hna
  · intro hfin
    have hna : isNaNb F (abs F a) = false := by
      rw [isNaNb_abs F hF]
      exact isNaNb_false_of_fin hfin
    have hinfa : isInfb F (abs F a) = false := by
      rw [isInfb_abs F hF]
      exact isInfb_false_of_fin hfin
    refine ⟨hna, hnanInf, ?_⟩
    rw [qv_xval_inf hinfInf, hs, if_neg (by omega : ¬(0 : Nat) = 1),
      xval_of_not_inf hinfa, qv_fval_abs F hF a]
    exact magQ_lt_BIG F hF a hfin

/-!  ### Round-to-nearest-even: basic facts -/

/-- Decomposition of `qv` by Euclidean division of the numerator. -/
theorem qv_ediv_decomp {q : Q2} (hq : 0 < q.2) :
    qv q = ((Int.ediv q.1 (q.2 : Int) : Int) : ℚ)
      + ((Int.emod q.1 (q.2 : Int) : Int) : ℚ) / (q.2 : ℚ) := by
  have hid : (q.2 : Int) * Int.ediv q.1 (q.2 : Int) + Int.emod q.1 (q.2 : Int) = q.1 :=
    Int.ediv_add_emod q.1 (q.2 : Int)
  have hd : (0 : ℚ) < (q.2 : ℚ) := qv_den_cast_pos hq
  have hcast : (q.2 : ℚ) * ((Int.ediv q.1 (q.2 : Int) : Int) : ℚ)
      + ((Int.emod q.1 (q.2 : Int) : Int) : ℚ) = (q.1 : ℚ) := by
    exact_mod_cast congrArg (fun z : Int => (z : ℚ)) hid
  unfold qv
  rw [← hcast, add_div, mul_div_cancel_left₀ _ (ne_of_gt hd)]

/-- Floor bracketing of the Euclidean quotient. -/
theorem ediv_bracket {q : Q2} (hq : 0 < q.2) :
    ((Int.ediv q.1 (q.2 : Int) : Int) : ℚ) ≤ qv q ∧
      qv q < ((Int.ediv q.1 (q.2 : Int) : Int) : ℚ) + 1 := by
  have hr0 : 0 ≤ Int.emod q.1 (q.2 : Int) :=
    Int.emod_nonneg q.1 (by exact_mod_cast Nat.pos_iff_ne_zero.mp hq)
  have hrlt : Int.emod q.1 (q.2 : Int) < (q.2 : Int) :=
    Int.emod_lt_of_pos q.1 (by exact_mod_cast hq)
  have hd : (0 : ℚ) < (q.2 : ℚ) := qv_den_cast_pos hq
  have hqv := qv_ediv_decomp hq
  constructor
  · rw [hqv]
    have : (0 : ℚ) ≤ ((Int.emod q.1 (q.2 : Int) : Int) : ℚ) / (q.2 : ℚ) := by
      apply div_nonneg _ (le_of_lt hd)
      exact_mod_cast hr0
    linarith
  · rw [hqv]
    have : ((Int.emod q.1 (q.2 : Int) : Int) : ℚ) / (q.2 : ℚ) < 1 := by
      rw [div_lt_one hd]
      exact_mod_cast hrlt
    linarith

/-- The round-to-nearest-even result is the floor or the floor plus one. -/
theorem rne_mem {q : Q2} :
    rne q = Int.ediv q.1 (q.2 : Int) ∨ rne q = Int.ediv q.1 (q.2 : Int) + 1 := by
  unfold rne
  split
  · exact Or.inl rfl
  split
  · exact Or.inr rfl
  split
  · exact Or.inl rfl
  · exact Or.inr rfl

/-- Two-sided distance bound: rounding moves the value by at most `1/2`. -/
theorem rne_bounds {q : Q2} (hq : 0 < q.2) :
    qv q - 1/2 ≤ (rne q : ℚ) ∧ (rne q : ℚ) ≤ qv q + 1/2 := by
  have hr0 : 0 ≤ Int.emod q.1 (q.2 : Int) :=
    Int.emod_nonneg q.1 (by exact_mod_cast Nat.pos_iff_ne_zero.mp hq)
  have hrlt : Int.emod q.1 (q.2 : Int) < (q.2 : Int) :=
    Int.emod_lt_of_pos q.1 (by exact_mod_cast hq)
  have hd : (0 : ℚ) < (q.2 : ℚ) := qv_den_cast_pos hq
  have hqv := qv_ediv_decomp hq
  unfold rne
  split
  · rename_i hlt
    have h1 : ((Int.emod q.1 (q.2 : Int) : Int) : ℚ) / (q.2 : ℚ) < 1/2 := by
      rw [div_lt_iff hd]
      have : (2 : ℚ) * ((Int.emod q.1 (q.2 : Int) : Int) : ℚ) < (q.2 : ℚ) := by
        exact_mod_cast hlt
      linarith
    have h0 : (0 : ℚ) ≤ ((Int.emod q.1 (q.2 : Int) : Int) : ℚ) / (q.2 : ℚ) := by
      apply div_nonneg _ (le_of_lt hd)
      exact_mod_cast hr0
    constructor <;> rw [hqv] <;> linarith
  split
  · rename_i hgt
    have h1 : 1/2 < ((Int.emod q.1 (q.2 : Int) : Int) : ℚ) / (q.2 : ℚ) := by
      rw [lt_div_iff hd]
      have : (q.2 : ℚ) < 2 * ((Int.emod q.1 (q.2 : Int) : Int) : ℚ) := by
        exact_mod_cast hgt
      linarith
    have h2 : ((Int.emod q.1 (q.2 : Int) : Int) : ℚ) / (q.2 : ℚ) < 1 := by
      rw [div_lt_one hd]
      exact_mod_cast hrlt
    constructor <;> rw [hqv] <;> push_cast <;> linarith
  · rename_i hnlt hngt
    have heq : ((Int.emod q.1 (q.2 : Int) : Int) : ℚ) / (q.2 : ℚ) = 1/2 := by
      have h2 : 2 * Int.emod q.1 (q.2 : Int) = (q.2 : Int) := by omega
      rw [div_eq_iff (ne_of_gt hd)]
      have : (2 : ℚ) * ((Int.emod q.1 (q.2 : Int) : Int) : ℚ) = (q.2 : ℚ) := by
        exact_mod_cast congrArg (fun z : Int => (z : ℚ)) h2
      linarith
    split
    · constructor <;> rw [hqv, heq] <;> linarith
    · constructor <;> rw [hqv, heq] <;> push_cast <;> linarith

/-- Rounding a value that is at least 1 yields at least 1. -/
theorem rne_ge_one {q : Q2} (hq : 0 < q.2) (h : 1 ≤ qv q) : 1 ≤ rne q := by
  have hb := ediv_bracket hq
  have h2 : (0 : ℚ) < ((Int.ediv q.1 (q.2 : Int) : Int) : ℚ) + 1 := by linarith [hb.2]
  have h3 : 0 < Int.ediv q.1 (q.2 : Int) + 1 := by exact_mod_cast h2
  have h4 : 1 ≤ Int.ediv q.1 (q.2 : Int) := by
    by_contra hc
    push_neg at hc
    have h5 : Int.ediv q.1 (q.2 : Int) = 0 := by omega
    rw [h5] at hb
    simp at hb
    linarith [hb.2]
  rcases rne_mem (q := q) with he | he <;> omega

/-- Rounding a nonnegative value yields a nonnegative integer. -/
theorem rne_nonneg {q : Q2} (hq : 0 < q.2) (h : 0 ≤ qv q) : 0 ≤ rne q := by
  have hb := ediv_bracket hq
  have h2 : (0 : ℚ) < ((Int.ediv q.1 (q.2 : Int) : Int) : ℚ) + 1 := by linarith [hb.2]
  have h3 : 0 < Int.ediv q.1 (q.2 : Int) + 1 := by exact_mod_cast h2
  rcases rne_mem (q := q) with he | he <;> omega

/-!  ### Binary-search base-2 logarithm -/

theorem elogGo_zero (q : Q2) (lo hi : Int) : elogGo q 0 lo hi = lo := rfl

/-- Invariant preservation of the binary search: starting from a bracketing
interval that fits in `2^fuel`, the search returns the floor logarithm. -/
theorem elogGo_spec (q : Q2) (hq2 : 0 < q.2) :
    ∀ (fuel : Nat) (lo hi : Int),
      (2 : ℚ) ^ lo ≤ qv q → qv q < (2 : ℚ) ^ hi → hi - lo ≤ 2 ^ fuel → lo < hi →
      (2 : ℚ) ^ elogGo q fuel lo hi ≤ qv q ∧
        qv q < (2 : ℚ) ^ (elogGo q fuel lo hi + 1) ∧
        lo ≤ elogGo q fuel lo hi ∧ elogGo q fuel lo hi < hi := by
  intro fuel
  induction fuel with
  | zero =>
    intro lo hi hlo hhi hgap hlt
    have hhi1 : hi = lo + 1 := by
      rw [pow_zero] at hgap
      omega
    rw [elogGo_zero]
    exact ⟨hlo, by rw [← hhi1]; exact hhi, le_refl lo, hlt⟩
  | succ fuel ih =>
    intro lo hi hlo hhi hgap hlt
    rw [elogGo]
    split
    · rename_i hle
      have hhi1 : hi = lo + 1 := by omega
      exact ⟨hlo, by rw [← hhi1]; exact hhi, le_refl lo, hlt⟩
    · rename_i hgt
      push_neg at hgt
      have hmid_eq : Int.ediv (lo + hi) 2 = (lo + hi) / 2 := rfl
      have hp : (2 : Int) ^ (fuel + 1) = 2 * 2 ^ fuel := by ring
      have hmid1 : lo + 1 ≤ Int.ediv (lo + hi) 2 := by rw [hmid_eq]; omega
      have hmid2 : Int.ediv (lo + hi) 2 < hi := by rw [hmid_eq]; omega
      have hgap1 : hi - Int.ediv (lo + hi) 2 ≤ 2 ^ fuel := by rw [hmid_eq]; omega
      have hgap2 : Int.ediv (lo + hi) 2 - lo ≤ 2 ^ fuel := by rw [hmid_eq]; omega
      split
      · rename_i hcmp
        have hmid : (2 : ℚ) ^ Int.ediv (lo + hi) 2 ≤ qv q := by
          have := (q2Le_iff (pow2p_den_pos _) hq2).mp hcmp
          rwa [qv_pow2p] at this
        have := ih (Int.ediv (lo + hi) 2) hi hmid hhi hgap1 hmid2
        exact ⟨this.1, this.2.1, by omega, this.2.2.2⟩
      · rename_i hcmp
        have hmid : qv q < (2 : ℚ) ^ Int.ediv (lo + hi) 2 := by
          rw [Bool.not_eq_true] at hcmp
          by_contra hc
          push_neg at hc
          have : q2Le (pow2p (Int.ediv (lo + hi) 2)) q = true := by
            rw [q2Le_iff (pow2p_den_pos _) hq2, qv_pow2p]
            exact hc
          rw [this] at hcmp
          cases hcmp
        have := ih lo (Int.ediv (lo + hi) 2) hlo hmid hgap2 (by omega)
        exact ⟨this.1, this.2.1, this.2.2.1, by omega⟩

theorem elogBound_pos (F : FpFormat) : 0 < elogBound F := by
  unfold elogBound
  positivity

/-- The fixed fuel `totalBits + 64` suffices for the format's search range. -/
theorem elogBound_fits (F : FpFormat) (hF : goodF F) :
    elogBound F - -(elogBound F) ≤ 2 ^ (F.totalBits + 64) := by
  have h1 : EXPONENT_SIZE F ≤ F.totalBits := by unfold EXPONENT_SIZE; omega
  have hNat : 2 * (2 * ((2 : Nat) ^ EXPONENT_SIZE F + F.sigBits) + 4)
      ≤ 2 ^ (F.totalBits + 64) := by
    have h2 : (2 : Nat) ^ EXPONENT_SIZE F ≤ 2 ^ F.totalBits :=
      Nat.pow_le_pow_right (by omega) h1
    have h3 : F.sigBits < 2 ^ F.sigBits := Nat.lt_two_pow _
    have h4 : (2 : Nat) ^ F.sigBits ≤ 2 ^ F.totalBits :=
      Nat.pow_le_pow_right (by omega) (by have := hF.2; omega)
    have h5 : (2 : Nat) ^ (F.totalBits + 64) = 2 ^ F.totalBits * 2 ^ 64 := by ring
    have h6 : (1 : Nat) ≤ 2 ^ F.totalBits := Nat.one_le_two_pow
    omega
  unfold elogBound
  have hc : ((2 ^ (F.totalBits + 64) : Nat) : Int) = 2 ^ (F.totalBits + 64) := by
    push_cast
    ring
  have hi : ((2 * (2 * ((2 : Nat) ^ EXPONENT_SIZE F + F.sigBits) + 4) : Nat) : Int)
      ≤ ((2 ^ (F.totalBits + 64) : Nat) : Int) := by exact_mod_cast hNat
  rw [hc] at hi
  push_cast at hi ⊢
  omega

/-- Correctness of `elog` on the format's value range. -/
theorem elog_spec (F : FpFormat) (hF : goodF F) (q : Q2) (hq2 : 0 < q.2)
    (hlow : (2 : ℚ) ^ (-(elogBound F)) ≤ qv q)
    (hhigh : qv q < (2 : ℚ) ^ elogBound F) :
    (2 : ℚ) ^ elog F q ≤ qv q ∧ qv q < (2 : ℚ) ^ (elog F q + 1) ∧
      -(elogBound F) ≤ elog F q ∧ elog F q < elogBound F := by
  have hB := elogBound_pos F
  have := elogGo_spec q hq2 (F.totalBits + 64) (-(elogBound F)) (elogBound F)
    hlow hhigh (elogBound_fits F hF) (by omega)
  exact this

/-!  ### Properties of the rounded bit pattern -/

theorem pow2cast (k : Nat) : (2 : ℚ) ^ ((k : Nat) : Int) = ((2 ^ k : Nat) : ℚ) := by
  rw [zpow_natCast]
  push_cast
  ring

theorem goodF.sig_pow_le {F : FpFormat} (hF : goodF F) :
    2 ^ F.sigBits ≤ 2 ^ (F.totalBits - 1) := by
  apply Nat.pow_le_pow_right (by omega)
  have := hF.2
  omega

/-- Fields of a bare subnormal pattern. -/
theorem small_fields {F : FpFormat} (hF : goodF F) {n1 : Nat}
    (h : n1 < 2 ^ F.sigBits) :
    signF F n1 = 0 ∧ expF F n1 = 0 ∧ fracF F n1 = n1 := by
  refine ⟨?_, ?_, Nat.mod_eq_of_lt h⟩
  · unfold signF
    rw [Nat.div_eq_of_lt (lt_of_lt_of_le h hF.sig_pow_le)]
  · unfold expF
    rw [Nat.div_eq_of_lt h]
    exact Nat.zero_mod _

/-- The encoded pattern is sign-free, below the sign bit, never NaN, has a
positive extended value, and stays finite while the biased exponent is below
the reserved field. -/
theorem rEncode_spec {F : FpFormat} (hF : goodF F) {n1 : Nat} {qe1 : Int}
    (hn1 : 1 ≤ n1) (hn2 : n1 < 2 ^ (F.sigBits + 1)) (hqe : minExp F ≤ qe1) :
    rEncode F n1 qe1 < 2 ^ (F.totalBits - 1) ∧
      isNaNb F (rEncode F n1 qe1) = false ∧
      0 < qv (xval F (rEncode F n1 qe1)) ∧
      (qe1 + F.sigBits + EXPONENT_BIAS F < allOnes F →
        expF F (rEncode F n1 qe1) ≠ allOnes F) := by
  have hallpos := hF.allOnes_pos
  unfold rEncode
  split
  · rename_i hsub
    obtain ⟨hs, he, hf⟩ := small_fields hF hsub
    have hfin : expF F n1 ≠ allOnes F := by omega
    have hnotinf := isInfb_false_of_fin hfin
    refine ⟨lt_of_lt_of_le hsub hF.sig_pow_le, isNaNb_false_of_fin hfin, ?_, fun _ => hfin⟩
    rw [xval_of_not_inf hnotinf, qv_fval, hs, if_neg (by omega)]
    apply magQ_pos
    rw [hf]
    omega
  · rename_i hge
    push_neg at hge
    have hE1 : 1 ≤ qe1 + F.sigBits + EXPONENT_BIAS F := by
      unfold minExp at hqe
      omega
    split
    · rename_i hov
      have hIE : EXPONENT_MASK F = INFINITY_BITS F := rfl
      rw [hIE]
      obtain ⟨hs, he, hf⟩ := INFINITY_BITS_fields F hF
      have hnan : isNaNb F (INFINITY_BITS F) = false := by
        unfold isNaNb
        simp [he, hf]
      have hinf : isInfb F (INFINITY_BITS F) = true := by
        unfold isInfb
        simp [he, hf]
      have hsize : INFINITY_BITS F < 2 ^ (F.totalBits - 1) := by
        have hp := pat_lt_signBit hF hF.allOnes_lt
          (Nat.pos_pow_of_pos F.sigBits (by omega) : (0 : Nat) < 2 ^ F.sigBits)
        unfold allOnes at hp
        unfold INFINITY_BITS
        rw [EXPONENT_MASK_eq]
        omega
      refine ⟨hsize, hnan, ?_, fun hc => absurd hov (by omega)⟩
      rw [qv_xval_inf hinf, hs, if_neg (by omega)]
      exact pow2p_pos _
    · rename_i hok
      push_neg at hok
      have hEnat : ((qe1 + F.sigBits + EXPONENT_BIAS F).toNat : Int)
          = qe1 + F.sigBits + EXPONENT_BIAS F := Int.toNat_of_nonneg (by omega)
      have hE2 : (qe1 + F.sigBits + EXPONENT_BIAS F).toNat < allOnes F := by omega
      have hE3 : 1 ≤ (qe1 + F.sigBits + EXPONENT_BIAS F).toNat := by omega
      have hE4 : (qe1 + F.sigBits + EXPONENT_BIAS F).toNat < 2 ^ EXPONENT_SIZE F :=
        lt_trans hE2 hF.allOnes_lt
      have hf' : n1 - 2 ^ F.sigBits < 2 ^ F.sigBits := by
        rw [pow_succ] at hn2
        omega
      have hpat : (qe1 + F.sigBits + EXPONENT_BIAS F).toNat * 2 ^ F.sigBits
            + (n1 - 2 ^ F.sigBits)
          = 0 * 2 ^ (F.totalBits - 1)
            + (qe1 + F.sigBits + EXPONENT_BIAS F).toNat * 2 ^ F.sigBits
            + (n1 - 2 ^ F.sigBits) := by ring
      rw [hpat]
      obtain hs := signF_pat hF (show (0 : Nat) < 2 by omega) hE4 hf'
      obtain he := expF_pat hF hE4 hf'
      have hfin : expF F (0 * 2 ^ (F.totalBits - 1)
          + (qe1 + F.sigBits + EXPONENT_BIAS F).toNat * 2 ^ F.sigBits
          + (n1 - 2 ^ F.sigBits)) ≠ allOnes F := by
        rw [he]
        omega
      refine ⟨?_, isNaNb_false_of_fin hfin, ?_, fun _ => hfin⟩
      · have := pat_lt_signBit hF hE4 hf'
        omega
      · rw [xval_of_not_inf (isInfb_false_of_fin hfin), qv_fval, hs, if_neg (by omega)]
        apply magQ_pos
        rw [he]
        omega

/-- Main rounding lemma: on the format's value range, the rounded magnitude
is sign-free and below the sign bit, never NaN, positive whenever the input
is at least the subnormal quantum, and finite whenever the input is below
`2^bias`. -/
theorem roundMag_spec (F : FpFormat) (hF : goodF F) (m : Q2) (hm2 : 0 < m.2)
    (hlow : (2 : ℚ) ^ (-(elogBound F)) ≤ qv m)
    (hhigh : qv m < (2 : ℚ) ^ elogBound F) :
    roundMag F m < 2 ^ (F.totalBits - 1) ∧
      isNaNb F (roundMag F m) = false ∧
      ((2 : ℚ) ^ minExp F ≤ qv m → 0 < qv (xval F (roundMag F m))) ∧
      (qv m < (2 : ℚ) ^ (EXPONENT_BIAS F : Int) → expF F (roundMag F m) ≠ allOnes F) := by
  have htwo : (2 : ℚ) ≠ 0 := by norm_num
  have he := elog_spec F hF m hm2 hlow hhigh
  have hqe_lo : minExp F ≤ rqe F m := le_max_right _ _
  have hqe_hi : elog F m - F.sigBits ≤ rqe F m := le_max_left _ _
  have hd : 0 < (q2Mul m (pow2p (-rqe F m))).2 := q2Mul_den_pos hm2 (pow2p_den_pos _)
  have hx_eq : qv (q2Mul m (pow2p (-rqe F m))) = qv m * (2 : ℚ) ^ (-rqe F m) := by
    rw [qv_mul hm2 (pow2p_den_pos _), qv_pow2p]
  have hqmpos : 0 < qv m := lt_of_lt_of_le (zpow_pos (two_pos (α := ℚ)) _) hlow
  have hx_nonneg : 0 ≤ qv (q2Mul m (pow2p (-rqe F m))) := by
    rw [hx_eq]
    have := zpow_pos (two_pos (α := ℚ)) (-rqe F m)
    positivity
  have hrne_nonneg := rne_nonneg hd hx_nonneg
  have hcast : ((rn F m : Nat) : Int) = rne (q2Mul m (pow2p (-rqe F m))) := by
    unfold rn
    exact Int.toNat_of_nonneg hrne_nonneg
  have hrb := rne_bounds hd
  have hx_lt : qv (q2Mul m (pow2p (-rqe F m))) < (2 : ℚ) ^ ((F.sigBits : Int) + 1) := by
    rw [hx_eq]
    calc qv m * (2 : ℚ) ^ (-rqe F m)
        < (2 : ℚ) ^ (elog F m + 1) * (2 : ℚ) ^ (-rqe F m) :=
          mul_lt_mul_of_pos_right he.2.1 (zpow_pos (two_pos (α := ℚ)) _)
      _ = (2 : ℚ) ^ (elog F m + 1 + -rqe F m) := (zpow_add₀ htwo _ _).symm
      _ ≤ (2 : ℚ) ^ ((F.sigBits : Int) + 1) :=
          zpow_le_zpow_right₀ one_le_two (by omega)
  have hrn_le : rn F m ≤ 2 ^ (F.sigBits + 1) := by
    have hexp : ((F.sigBits : Int) + 1) = ((F.sigBits + 1 : Nat) : Int) := by
      push_cast
      ring
    have hc : (2 : ℚ) ^ ((F.sigBits : Int) + 1) = ((2 ^ (F.sigBits + 1) : Nat) : ℚ) := by
      rw [hexp, pow2cast]
    have h1 : (rne (q2Mul m (pow2p (-rqe F m))) : ℚ) < ((2 ^ (F.sigBits + 1) : Nat) : ℚ) + 1 := by
      rw [← hc]
      have := hrb.2
      linarith
    have h3 : rne (q2Mul m (pow2p (-rqe F m))) < ((2 ^ (F.sigBits + 1) : Nat) : Int) + 1 := by
      exact_mod_cast h1
    omega
  have hb3 : (3 : Int) ≤ (EXPONENT_BIAS F : Int) := by exact_mod_cast hF.bias_ge
  have hb1 : 2 * (EXPONENT_BIAS F : Int) + 1 = (allOnes F : Int) := by
    exact_mod_cast hF.bias_eq
  have hqe_bound : qv m < (2 : ℚ) ^ (EXPONENT_BIAS F : Int) →
      rqe F m ≤ (EXPONENT_BIAS F : Int) - 1 - F.sigBits := by
    intro hov
    have heb : elog F m < (EXPONENT_BIAS F : Int) := by
      by_contra hc
      push_neg at hc
      have : (2 : ℚ) ^ (EXPONENT_BIAS F : Int) ≤ (2 : ℚ) ^ elog F m :=
        zpow_le_zpow_right₀ one_le_two hc
      linarith [he.1]
    unfold rqe minExp
    apply max_le <;> omega
  unfold roundMag
  split
  · rename_i hz
    obtain ⟨hs0, he0, hf0⟩ := zero_fields F
    have hap := hF.allOnes_pos
    have hfin0 : expF F 0 ≠ allOnes F := by
      rw [he0]
      omega
    refine ⟨Nat.pos_pow_of_pos _ (by omega), isNaNb_false_of_fin hfin0, ?_, fun _ => hfin0⟩
    intro hge
    exfalso
    have hx1 : 1 ≤ qv (q2Mul m (pow2p (-rqe F m))) := by
      rw [hx_eq]
      rcases le_total (minExp F) (elog F m - F.sigBits) with hmx | hmx
      · have hqe_eq : rqe F m = elog F m - F.sigBits := max_eq_left hmx
        calc (1 : ℚ) = (2 : ℚ) ^ (0 : Int) := (zpow_zero 2).symm
          _ ≤ (2 : ℚ) ^ (elog F m + -rqe F m) :=
              zpow_le_zpow_right₀ one_le_two (by rw [hqe_eq]; omega)
          _ = (2 : ℚ) ^ elog F m * (2 : ℚ) ^ (-rqe F m) := zpow_add₀ htwo _ _
          _ ≤ qv m * (2 : ℚ) ^ (-rqe F m) :=
              mul_le_mul_of_nonneg_right he.1 (le_of_lt (zpow_pos (two_pos (α := ℚ)) _))
      · have hqe_eq : rqe F m = minExp F := max_eq_right hmx
        have hz0 : minExp F + -(minExp F) = 0 := by ring
        calc (1 : ℚ) = (2 : ℚ) ^ (0 : Int) := (zpow_zero 2).symm
          _ = (2 : ℚ) ^ (minExp F + -(minExp F)) := by rw [hz0]
          _ = (2 : ℚ) ^ minExp F * (2 : ℚ) ^ (-(minExp F)) := zpow_add₀ htwo _ _
          _ ≤ qv m * (2 : ℚ) ^ (-rqe F m) := by
              rw [hqe_eq]
              exact mul_le_mul_of_nonneg_right hge
                (le_of_lt (zpow_pos (two_pos (α := ℚ)) _))
    have h1 := rne_ge_one hd hx1
    omega
  · rename_i hnz
    split
    · rename_i hcarry
      have hrn_eq : rn F m = 2 ^ (F.sigBits + 1) := le_antisymm hrn_le hcarry
      have hneq : rn F m / 2 = 2 ^ F.sigBits := by
        rw [hrn_eq, pow_succ]
        omega
      rw [hneq]
      have hspec := rEncode_spec hF
        (show (1 : Nat) ≤ 2 ^ F.sigBits from Nat.one_le_two_pow)
        (show (2 : Nat) ^ F.sigBits < 2 ^ (F.sigBits + 1) by
          rw [pow_succ]
          have : (1 : Nat) ≤ 2 ^ F.sigBits := Nat.one_le_two_pow
          omega)
        (show minExp F ≤ rqe F m + 1 by omega)
      refine ⟨hspec.1, hspec.2.1, fun _ => hspec.2.2.1, fun hov => hspec.2.2.2 ?_⟩
      have := hqe_bound hov
      omega
    · rename_i hncarry
      push_neg at hncarry
      have hspec := rEncode_spec hF (show 1 ≤ rn F m by omega) hncarry hqe_lo
      refine ⟨hspec.1, hspec.2.1, fun _ => hspec.2.2.1, fun hov => hspec.2.2.2 ?_⟩
      have := hqe_bound hov
      omega

/-!  ### Unfolding the comparison -/

theorem isNaNb_of_inf {F : FpFormat} {a : Nat} (h : isInfb F a = true) :
    isNaNb F a = false := by
  rw [isInfb_iff] at h
  unfold isNaNb
  simp [h.1, h.2]

theorem nan_guard {F : FpFormat} (hF : goodF F) {a : Nat}
    (h : isNaNb F a = true) : fltb F (abs F a) (INFINITY_BITS F) = false := by
  unfold fltb
  rw [isNaNb_abs F hF, h]
  simp

theorem inf_guard {F : FpFormat} (hF : goodF F) {a : Nat}
    (h : isInfb F a = true) : fltb F (abs F a) (INFINITY_BITS F) = false := by
  have h2 : isFinb F a = false := by
    rw [isInfb_iff] at h
    unfold isFinb
    simp [h.1]
  cases hc : fltb F (abs F a) (INFINITY_BITS F)
  · rfl
  · rw [(finite_guard_iff F hF a).mp hc] at h2
    cases h2

/-- Entering `eq_with_tol_fuel` with a non-finite operand dispatches to
`handle_not_finite`. -/
theorem eq_fuel_nonfinite {F : FpFormat} {fuel lhs rhs tol : Nat}
    (h : (fltb F (abs F lhs) (INFINITY_BITS F)
      && fltb F (abs F rhs) (INFINITY_BITS F)) = false) :
    eq_with_tol_fuel F (fuel + 1) lhs rhs tol
      = handle_not_finite F (eq_with_tol_fuel F fuel) lhs rhs tol := by
  rw [eq_with_tol_fuel, h]
  simp

/-- Entering `eq_with_tol_fuel` with two finite operands computes the
finite path, independently of the fuel. -/
theorem eq_fuel_finite {F : FpFormat} (hF : goodF F) {fuel lhs rhs tol : Nat}
    (hx : isFinb F lhs = true) (hy : isFinb F rhs = true) :
    eq_with_tol_fuel F (fuel + 1) lhs rhs tol
      = fltb F (abs F (fsub F lhs rhs)) (fmul F tol (scale2 F lhs rhs)) := by
  have h1 := (finite_guard_iff F hF lhs).mpr hx
  have h2 := (finite_guard_iff F hF rhs).mpr hy
  rw [eq_with_tol_fuel, h1, h2]
  simp

/-!  ### Claim C4: NaN absorption -/

/-- **C4.**  For every operand `x` (including NaN itself) and every tolerance
`tol` (any bit pattern), if either argument of `equal_with` is a NaN — any
sign or payload — the comparison returns `false`. -/
theorem claim4_nan_absorption (F : FpFormat) (hF : goodF F) (a b tol : Nat)
    (h : isNaNb F a = true ∨ isNaNb F b = true) :
    eq_with_tol_impl F a b tol = false := by
  have hguard : (fltb F (abs F a) (INFINITY_BITS F)
      && fltb F (abs F b) (INFINITY_BITS F)) = false := by
    rcases h with h | h
    · rw [nan_guard hF h]
      simp
    · rw [nan_guard hF h]
      simp
  unfold eq_with_tol_impl
  rw [eq_fuel_nonfinite hguard]
  unfold handle_not_finite
  rcases h with h | h <;> rw [h] <;> simp

/-- Witness for C4: `equal(NaN, 0.0)` is `false` for `f64` under the default
tolerance. -/
theorem claim4_witness :
    (isNaNb F64 (NAN_PAT F64) = true ∨ isNaNb F64 0 = true) ∧
      eq_with_tol_impl F64 (NAN_PAT F64) 0 F64_TOLERANCE = false :=
  ⟨Or.inl (by decide), claim4_nan_absorption F64 goodF_F64 _ _ _ (Or.inl (by decide))⟩

/-!  ### Claim C5: infinite vs infinite -/

/-- **C5.**  When both operands are infinite, `equal_with` returns `true`
exactly when they are the same signed infinity, independently of the
tolerance. -/
theorem claim5_inf_inf (F : FpFormat) (hF : goodF F) (a b tol : Nat)
    (ha : isInfb F a = true) (hb : isInfb F b = true) :
    (eq_with_tol_impl F a b tol = true ↔ signF F a = signF F b) := by
  have hguard : (fltb F (abs F a) (INFINITY_BITS F)
      && fltb F (abs F b) (INFINITY_BITS F)) = false := by
    rw [inf_guard hF ha]
    simp
  unfold eq_with_tol_impl
  rw [eq_fuel_nonfinite hguard]
  unfold handle_not_finite
  rw [isNaNb_of_inf ha, isNaNb_of_inf hb, ha, hb]
  simp only [Bool.or_self, Bool.and_self, if_true, Bool.false_eq_true, if_false]
  rw [feqb_iff, isNaNb_of_inf ha, isNaNb_of_inf hb, qv_xval_inf ha, qv_xval_inf hb]
  have hBpos : 0 < qv (BIGQ F) := pow2p_pos _
  have hsa := signF_lt F a
  have hsb := signF_lt F b
  constructor
  · rintro ⟨-, -, hq⟩
    by_cases h1 : signF F a = 1 <;> by_cases h2 : signF F b = 1 <;>
      simp [h1, h2] at hq ⊢ <;> first
      | omega
      | linarith
  · intro hs
    refine ⟨rfl, rfl, ?_⟩
    rw [hs]

/-- Witness for C5: `+inf` vs `-inf` for `f64`, default tolerance: not equal
(opposite signs). -/
theorem claim5_witness :
    isInfb F64 (INFINITY_BITS F64) = true ∧
      isInfb F64 (SIGN_BIT F64 + INFINITY_BITS F64) = true ∧
      eq_with_tol_impl F64 (INFINITY_BITS F64) (SIGN_BIT F64 + INFINITY_BITS F64)
        F64_TOLERANCE = false := by
  refine ⟨by decide, by decide, ?_⟩
  have h := claim5_inf_inf F64 goodF_F64 (INFINITY_BITS F64)
    (SIGN_BIT F64 + INFINITY_BITS F64) F64_TOLERANCE (by decide) (by decide)
  cases hc : eq_with_tol_impl F64 (INFINITY_BITS F64)
      (SIGN_BIT F64 + INFINITY_BITS F64) F64_TOLERANCE
  · rfl
  · exact absurd (h.mp hc) (by decide)

/-!  ### Claim C6: infinity vs zero/subnormal -/

/-- **C6.**  When one operand is infinite and the other has an all-zero
exponent field (zero or subnormal), `equal_with` returns `false` for every
tolerance, in either argument order. -/
theorem claim6_subnormal_vs_inf (F : FpFormat) (hF : goodF F) (a b tol : Nat)
    (ha : isInfb F a = true) (hb : expF F b = 0) :
    eq_with_tol_impl F a b tol = false ∧ eq_with_tol_impl F b a tol = false := by
  have hallpos := hF.allOnes_pos
  have hbfin : expF F b ≠ allOnes F := by omega
  have hbnan : isNaNb F b = false := isNaNb_false_of_fin hbfin
  have hbinf : isInfb F b = false := isInfb_false_of_fin hbfin
  have hguard1 : (fltb F (abs F a) (INFINITY_BITS F)
      && fltb F (abs F b) (INFINITY_BITS F)) = false := by
    rw [inf_guard hF ha]
    simp
  have hguard2 : (fltb F (abs F b) (INFINITY_BITS F)
      && fltb F (abs F a) (INFINITY_BITS F)) = false := by
    rw [inf_guard hF ha]
    simp
  constructor
  · unfold eq_with_tol_impl
    rw [eq_fuel_nonfinite hguard1]
    unfold handle_not_finite
    rw [isNaNb_of_inf ha, hbnan, ha, hbinf]
    simp only [Bool.or_self, Bool.and_false, Bool.false_eq_true, if_false, if_true]
    unfold rescale_retry
    rw [hb]
    simp
  · unfold eq_with_tol_impl
    rw [eq_fuel_nonfinite hguard2]
    unfold handle_not_finite
    rw [isNaNb_of_inf ha, hbnan, hbinf]
    simp only [Bool.or_self, Bool.false_and, Bool.false_eq_true, if_false]
    unfold rescale_retry
    rw [hb]
    simp

/-- Witness for C6: `+inf` vs the smallest positive subnormal of `f32`. -/
theorem claim6_witness :
    isInfb F32 (INFINITY_BITS F32) = true ∧ expF F32 1 = 0 ∧
      eq_with_tol_impl F32 (INFINITY_BITS F32) 1 F32_TOLERANCE = false ∧
      eq_with_tol_impl F32 1 (INFINITY_BITS F32) F32_TOLERANCE = false := by
  have h := claim6_subnormal_vs_inf F32 goodF_F32 (INFINITY_BITS F32) 1 F32_TOLERANCE
    (by decide) (by decide)
  exact ⟨by decide, by decide, h.1, h.2⟩

/-!  ### Claim C7: absolute zero comparison -/

/-- **C7.**  `zero_with(v, tol)` is `true` exactly when the sign-bit-cleared
magnitude of `v` is strictly below `tol` — an absolute comparison that
involves no other value's magnitude; `zero` is the same comparison at the
default tolerance.  Additionally, `zero(EPSILON_32)` is `true` while
`zero_with(EPSILON_32, EPSILON_32)` is `false`. -/
theorem claim7_zero_with (F : FpFormat) (hF : goodF F) (v tol : Nat) :
    (almost_zero_with F v tol = true ↔
      isNaNb F v = false ∧ isNaNb F tol = false ∧
        qv (xval F (abs F v)) < qv (xval F tol)) ∧
    almost_zero32 EPSILON_32_BITS = true ∧
    almost_zero_with F32 EPSILON_32_BITS EPSILON_32_BITS = false := by
  refine ⟨?_, by decide, by decide⟩
  unfold almost_zero_with
  rw [fltb_iff, isNaNb_abs F hF]

/-- Witness for C7 at a concrete input: `zero_with(1.0, 2.0)` for `f64`
(magnitude `1.0` is below `2.0`). -/
theorem claim7_witness :
    almost_zero_with F64 (1023 * 2 ^ 52) (1024 * 2 ^ 52) = true ↔
      isNaNb F64 (1023 * 2 ^ 52) = false ∧ isNaNb F64 (1024 * 2 ^ 52) = false ∧
        qv (xval F64 (abs F64 (1023 * 2 ^ 52))) < qv (xval F64 (1024 * 2 ^ 52)) :=
  (claim7_zero_with F64 goodF_F64 (1023 * 2 ^ 52) (1024 * 2 ^ 52)).1

/-!  ### Claim C1: the finite path computes a clamped relative comparison -/

/-- Modelled from the claim (spec §4.3 steps 1–2): the larger of the two
sign-bit-cleared magnitudes. -/
def spec_larger (F : FpFormat) (lhs rhs : Nat) : Nat :=
  if q2Le (xval F (abs F lhs)) (xval F (abs F rhs)) then abs F rhs else abs F lhs

/-- Modelled from the claim (spec §4.3 steps 1–2): the larger magnitude,
replaced by `MIN_POSITIVE` whenever it is less than or equal to
`MIN_POSITIVE`. -/
def spec_scale (F : FpFormat) (lhs rhs : Nat) : Nat :=
  if q2Le (xval F (spec_larger F lhs rhs)) (xval F (MIN_POSITIVE_BITS F)) then
    MIN_POSITIVE_BITS F
  else spec_larger F lhs rhs

theorem q2Le_eq_not_lt (a b : Q2) : q2Le a b = !q2Lt b a := by
  unfold q2Le q2Lt
  rw [← decide_not]
  exact decide_eq_decide.mpr not_lt.symm

theorem goodF.allOnes_ge7 {F : FpFormat} (hF : goodF F) : 7 ≤ allOnes F := by
  unfold allOnes
  have : (2 : Nat) ^ 3 ≤ 2 ^ EXPONENT_SIZE F := Nat.pow_le_pow_right (by omega) hF.eb_ge
  omega

theorem MIN_POSITIVE_not_nan (F : FpFormat) (hF : goodF F) :
    isNaNb F (MIN_POSITIVE_BITS F) = false := by
  apply isNaNb_false_of_fin
  rw [(MIN_POSITIVE_fields F hF).2.1]
  have := hF.allOnes_ge7
  omega

/-- The code's clamped scale coincides, bit for bit, with the scale described
by the specification. -/
theorem spec_scale_eq_scale2 (F : FpFormat) (hF : goodF F) (lhs rhs : Nat)
    (hlf : isFinb F lhs = true) (hrf : isFinb F rhs = true) :
    spec_scale F lhs rhs = scale2 F lhs rhs := by
  rw [isFinb_iff] at hlf hrf
  have hnl : isNaNb F (abs F lhs) = false := by
    rw [isNaNb_abs F hF]
    exact isNaNb_false_of_fin hlf
  have hnr : isNaNb F (abs F rhs) = false := by
    rw [isNaNb_abs F hF]
    exact isNaNb_false_of_fin hrf
  have hA : spec_larger F lhs rhs = scale1 F lhs rhs := by
    unfold spec_larger scale1 fgtb fltb
    rw [q2Le_eq_not_lt, hnl, hnr]
    cases hq : q2Lt (xval F (abs F rhs)) (xval F (abs F lhs)) <;> simp [hq]
  have hm_nan : isNaNb F (scale1 F lhs rhs) = false := by
    unfold scale1
    split
    · exact hnl
    · exact hnr
  unfold spec_scale scale2 fgtb fltb
  rw [hA, q2Le_eq_not_lt, hm_nan, MIN_POSITIVE_not_nan F hF]
  cases hq : q2Lt (xval F (MIN_POSITIVE_BITS F)) (xval F (scale1 F lhs rhs)) <;> simp [hq]

/-- **C1.**  When both sign-bit-cleared magnitudes are strictly below
infinity, `equal_with(lhs, rhs, tol)` returns `true` exactly when
`abs(lhs - rhs) < tol * scale`, where `scale` is the larger magnitude,
replaced by `MIN_POSITIVE` whenever it is at most `MIN_POSITIVE`; the
comparison is strict. -/
theorem claim1_finite_path (F : FpFormat) (hF : goodF F) (lhs rhs tol : Nat)
    (hl : fltb F (abs F lhs) (INFINITY_BITS F) = true)
    (hr : fltb F (abs F rhs) (INFINITY_BITS F) = true) :
    (eq_with_tol_impl F lhs rhs tol = true ↔
      fltb F (abs F (fsub F lhs rhs)) (fmul F tol (spec_scale F lhs rhs)) = true) := by
  have hlf := (finite_guard_iff F hF lhs).mp hl
  have hrf := (finite_guard_iff F hF rhs).mp hr
  unfold eq_with_tol_impl
  rw [eq_fuel_finite hF hlf hrf, spec_scale_eq_scale2 F hF lhs rhs hlf hrf]

/-- Witness for C1: `equal_with(1.0, 2.0, 0.5)` for `f64`; both magnitudes
are finite and the comparison works out to `false` on both sides of the
equivalence. -/
theorem claim1_witness :
    fltb F64 (abs F64 (1023 * 2 ^ 52)) (INFINITY_BITS F64) = true ∧
      fltb F64 (abs F64 (1024 * 2 ^ 52)) (INFINITY_BITS F64) = true ∧
      (eq_with_tol_impl F64 (1023 * 2 ^ 52) (1024 * 2 ^ 52) (1022 * 2 ^ 52) = true ↔
        fltb F64 (abs F64 (fsub F64 (1023 * 2 ^ 52) (1024 * 2 ^ 52)))
          (fmul F64 (1022 * 2 ^ 52) (spec_scale F64 (1023 * 2 ^ 52) (1024 * 2 ^ 52)))
          = true) :=
  ⟨by decide, by decide,
    claim1_finite_path F64 goodF_F64 _ _ _ (by decide) (by decide)⟩

/-!  ### Claim C2: MAX versus infinity (corrected) -/

/-- **C2, counterexample.**  The claim asserts that
`equal(MAX, +inf)` under the tight default tolerance returns `false`; in
fact it returns `true` for both widths: the rescale step replaces the
infinity by the *base* of MAX's binade (`2^emax`, significand bits dropped)
and halves MAX, and the resulting pair differs by a relative `2^-(sig+1)`,
far inside the default tolerance. -/
theorem claim2_counterexample :
    almost_equals64 (MAX_BITS F64) (INFINITY_BITS F64) = true ∧
      almost_equals32 (MAX_BITS F32) (INFINITY_BITS F32) = true := by
  constructor <;> decide

/-- **C2, amended.**  `equal_with(MAX, +inf, 0.5)` returns `true`
(exercising the rescale-and-retry path), and `equal(MAX, +inf)` under the
default tolerance *also* returns `true`, for both widths.
(`fround F (1, 2)` is the bit pattern of `0.5`.) -/
theorem claim2_amended :
    eq_with_tol_impl F64 (MAX_BITS F64) (INFINITY_BITS F64) (fround F64 (1, 2)) = true ∧
      eq_with_tol_impl F32 (MAX_BITS F32) (INFINITY_BITS F32) (fround F32 (1, 2)) = true ∧
      almost_equals64 (MAX_BITS F64) (INFINITY_BITS F64) = true ∧
      almost_equals32 (MAX_BITS F32) (INFINITY_BITS F32) = true := by
  refine ⟨by decide, by decide, by decide, by decide⟩

/-!  ### Claim C3: the substituted operand of the rescale (corrected) -/

/-- **C3, counterexample.**  The claim asserts `new_lhs` equals the largest
finite magnitude (`MAX`) with the sign copied; in fact the source masks
MAX's bits with `EXPONENT_MASK`, dropping the significand: for `lhs = +inf`
the substituted operand differs from `MAX` both as a bit pattern and in
numeric value, on both widths. -/
theorem claim3_counterexample :
    rescaled_lhs F64 (INFINITY_BITS F64) ≠ MAX_BITS F64 ∧
      q2Eq (xval F64 (rescaled_lhs F64 (INFINITY_BITS F64)))
        (xval F64 (MAX_BITS F64)) = false ∧
      rescaled_lhs F32 (INFINITY_BITS F32) ≠ MAX_BITS F32 ∧
      q2Eq (xval F32 (rescaled_lhs F32 (INFINITY_BITS F32)))
        (xval F32 (MAX_BITS F32)) = false := by
  refine ⟨by decide, by decide, by decide, by decide⟩

/-- **C3, amended.**  The substituted operand `new_lhs` is the *base of
MAX's binade*: the largest finite power of two, `2^EXPONENT_BIAS`, with
exponent field `allOnes - 1`, zero significand field, and the sign bit
copied from the infinite operand. -/
theorem claim3_amended (F : FpFormat) (hF : goodF F) (lhs : Nat) :
    expF F (rescaled_lhs F lhs) = allOnes F - 1 ∧
      fracF F (rescaled_lhs F lhs) = 0 ∧
      signF F (rescaled_lhs F lhs) = signF F lhs ∧
      qv (xval F (rescaled_lhs F lhs)) =
        (if signF F lhs = 1 then -((2 : ℚ) ^ (EXPONENT_BIAS F : Int))
          else (2 : ℚ) ^ (EXPONENT_BIAS F : Int)) := by
  obtain ⟨hs, he, hf⟩ := rescaled_lhs_fields F hF lhs
  have h7 := hF.allOnes_ge7
  have hfin : expF F (rescaled_lhs F lhs) ≠ allOnes F := by omega
  have hmag : magQ F (rescaled_lhs F lhs) = (2 : ℚ) ^ (EXPONENT_BIAS F : Int) := by
    unfold magQ
    rw [he, hf, if_neg (by omega)]
    have hb := hF.bias_eq
    have hexp : ((allOnes F - 1 : Nat) : Int) - EXPONENT_BIAS F - F.sigBits
        = (EXPONENT_BIAS F : Int) - F.sigBits := by
      have : ((allOnes F - 1 : Nat) : Int) = 2 * (EXPONENT_BIAS F : Int) := by
        have h1 : allOnes F - 1 = 2 * EXPONENT_BIAS F := by omega
        exact_mod_cast congrArg (fun z : Nat => (z : Int)) h1
      omega
    rw [hexp]
    have htwo : (2 : ℚ) ≠ 0 := by norm_num
    rw [add_zero, ← pow2cast]
    rw [← zpow_add₀ htwo]
    congr 1
    omega
  rw [xval_of_not_inf (isInfb_false_of_fin hfin), qv_fval, hs, hmag]
  exact ⟨he, hf, rfl, rfl⟩

/-- Witness for C3's amended statement: `lhs = -inf` for `f64`; the
substituted operand is `-2^1023`. -/
theorem claim3_witness :
    goodF F64 ∧
      (expF F64 (rescaled_lhs F64 (SIGN_BIT F64 + INFINITY_BITS F64)) = allOnes F64 - 1 ∧
        fracF F64 (rescaled_lhs F64 (SIGN_BIT F64 + INFINITY_BITS F64)) = 0 ∧
        signF F64 (rescaled_lhs F64 (SIGN_BIT F64 + INFINITY_BITS F64))
          = signF F64 (SIGN_BIT F64 + INFINITY_BITS F64) ∧
        qv (xval F64 (rescaled_lhs F64 (SIGN_BIT F64 + INFINITY_BITS F64))) =
          (if signF F64 (SIGN_BIT F64 + INFINITY_BITS F64) = 1
            then -((2 : ℚ) ^ (EXPONENT_BIAS F64 : Int))
            else (2 : ℚ) ^ (EXPONENT_BIAS F64 : Int))) :=
  ⟨goodF_F64, claim3_amended F64 goodF_F64 (SIGN_BIT F64 + INFINITY_BITS F64)⟩

/-!  ### Claim C8: reflexivity -/

theorem goodF.minExp_ge {F : FpFormat} (hF : goodF F) : -(elogBound F) ≤ minExp F := by
  unfold elogBound minExp
  have hb1 : (2 : Int) * EXPONENT_BIAS F + 1 = (allOnes F : Int) := by
    exact_mod_cast hF.bias_eq
  have h2 : ((allOnes F : Nat) : Int) < ((2 ^ EXPONENT_SIZE F : Nat) : Int) := by
    exact_mod_cast hF.allOnes_lt
  push_cast
  push_cast at h2
  omega

theorem goodF.biasp1_le_B {F : FpFormat} (hF : goodF F) :
    (EXPONENT_BIAS F : Int) + 1 ≤ elogBound F := by
  unfold elogBound
  have hb1 : (2 : Int) * EXPONENT_BIAS F + 1 = (allOnes F : Int) := by
    exact_mod_cast hF.bias_eq
  have h2 : ((allOnes F : Nat) : Int) < ((2 ^ EXPONENT_SIZE F : Nat) : Int) := by
    exact_mod_cast hF.allOnes_lt
  push_cast
  push_cast at h2
  omega

theorem magQ_zero (F : FpFormat) : magQ F 0 = 0 := by
  unfold magQ
  rw [(zero_fields F).2.1, (zero_fields F).2.2]
  simp

theorem magQ_MIN_POSITIVE (F : FpFormat) (hF : goodF F) :
    magQ F (MIN_POSITIVE_BITS F) = (2 : ℚ) ^ ((1 : Int) - EXPONENT_BIAS F) := by
  obtain ⟨hs, he, hf⟩ := MIN_POSITIVE_fields F hF
  unfold magQ
  rw [he, hf, if_neg (by omega)]
  have htwo : (2 : ℚ) ≠ 0 := by norm_num
  rw [add_zero, ← pow2cast, ← zpow_add₀ htwo]
  congr 1
  push_cast
  ring

theorem qv_xval_MIN_POSITIVE (F : FpFormat) (hF : goodF F) :
    qv (xval F (MIN_POSITIVE_BITS F)) = (2 : ℚ) ^ ((1 : Int) - EXPONENT_BIAS F) := by
  obtain ⟨hs, he, hf⟩ := MIN_POSITIVE_fields F hF
  have h7 := hF.allOnes_ge7
  have hfin : expF F (MIN_POSITIVE_BITS F) ≠ allOnes F := by omega
  rw [xval_of_not_inf (isInfb_false_of_fin hfin), qv_fval, hs,
    if_neg (by omega), magQ_MIN_POSITIVE F hF]

/-- Reflexivity of the comparison for any finite operand, for any tolerance
pattern that is finite, positive, below 1, and whose product with
`MIN_POSITIVE` does not round to zero.  The last three conditions are stated
as executable fraction comparisons and hold for both default tolerances. -/
theorem reflexive_with_tol (F : FpFormat) (hF : goodF F) (tolpat : Nat)
    (htf : isFinb F tolpat = true)
    (htpos : 0 < (fval F tolpat).1)
    (hts : q2Le (pow2p (minExp F))
      (q2Mul (fval F tolpat) (pow2p (1 - (EXPONENT_BIAS F : Int)))) = true)
    (htlt : q2Lt (fval F tolpat) (pow2p 0) = true)
    (x : Nat) (hx : isFinb F x = true) :
    eq_with_tol_impl F x x tolpat = true := by
  have htwo2 : (1 : ℚ) < 2 := one_lt_two
  have hxfin := (isFinb_iff F x).mp hx
  have htfin := (isFinb_iff F tolpat).mp htf
  -- the subtraction of equal operands is exactly +0
  have hcx : classify F x = .fin (fval F x) := classify_fin hxfin
  have hsubred : fsub F x x = fround F (q2Sub (fval F x) (fval F x)) := by
    unfold fsub
    rw [hcx]
  have h0 : (q2Sub (fval F x) (fval F x)).1 = 0 := sub_self _
  have hsub0 : fsub F x x = 0 := by
    rw [hsubred]
    unfold fround
    rw [if_pos h0]
  -- the clamped scale is finite with value in [2^(1-bias), 2^(bias+1))
  have hs1 : scale1 F x x = abs F x := by
    unfold scale1 fgtb fltb q2Lt
    simp
  have hs2 : scale2 F x x
      = if fgtb F (abs F x) (MIN_POSITIVE_BITS F) then abs F x
        else MIN_POSITIVE_BITS F := by
    unfold scale2
    rw [hs1]
  have h7 := hF.allOnes_ge7
  have hminfin : expF F (MIN_POSITIVE_BITS F) ≠ allOnes F := by
    rw [(MIN_POSITIVE_fields F hF).2.1]
    omega
  have hscale : expF F (scale2 F x x) ≠ allOnes F ∧
      (2 : ℚ) ^ ((1 : Int) - EXPONENT_BIAS F) ≤ qv (fval F (scale2 F x x)) ∧
      qv (fval F (scale2 F x x)) < (2 : ℚ) ^ ((EXPONENT_BIAS F : Int) + 1) := by
    rw [hs2]
    split
    · rename_i hgt
      have hxafin : expF F (abs F x) ≠ allOnes F := by
        rw [expF_abs F hF]
        exact hxfin
      have hlt := (fltb_iff F (MIN_POSITIVE_BITS F) (abs F x)).mp hgt
      rw [qv_xval_MIN_POSITIVE F hF, xval_of_not_inf (isInfb_false_of_fin hxafin)] at hlt
      refine ⟨hxafin, le_of_lt hlt.2.2, ?_⟩
      rw [qv_fval_abs F hF]
      exact magQ_lt F hF x hxfin
    · refine ⟨hminfin, ?_, ?_⟩
      · rw [qv_fval, (MIN_POSITIVE_fields F hF).1, if_neg (by omega),
          magQ_MIN_POSITIVE F hF]
      · rw [qv_fval, (MIN_POSITIVE_fields F hF).1, if_neg (by omega),
          magQ_MIN_POSITIVE F hF]
        apply zpow_lt_zpow_right₀ one_lt_two
        have := hF.bias_ge
        omega
  -- the rounded tolerance threshold is a positive non-NaN value
  have hct : classify F tolpat = .fin (fval F tolpat) := classify_fin htfin
  have hcs : classify F (scale2 F x x) = .fin (fval F (scale2 F x x)) :=
    classify_fin hscale.1
  have hmulred : fmul F tolpat (scale2 F x x)
      = fround F (q2Mul (fval F tolpat) (fval F (scale2 F x x))) := by
    unfold fmul
    rw [hct, hcs]
  have htd : 0 < (fval F tolpat).2 := fval_den_pos F tolpat
  have hsd : 0 < (fval F (scale2 F x x)).2 := fval_den_pos F (scale2 F x x)
  have hspos : 0 < qv (fval F (scale2 F x x)) :=
    lt_of_lt_of_le (zpow_pos (two_pos (α := ℚ)) _) hscale.2.1
  have htpos' : 0 < qv (fval F tolpat) := (qv_pos_iff htd).mpr htpos
  have hts' : (2 : ℚ) ^ minExp F
      ≤ qv (fval F tolpat) * (2 : ℚ) ^ ((1 : Int) - EXPONENT_BIAS F) := by
    have := (q2Le_iff (pow2p_den_pos _) (q2Mul_den_pos htd (pow2p_den_pos _))).mp hts
    rwa [qv_pow2p, qv_mul htd (pow2p_den_pos _), qv_pow2p] at this
  have htlt' : qv (fval F tolpat) < 1 := by
    have := (q2Lt_iff htd (pow2p_den_pos _)).mp htlt
    rwa [qv_pow2p, zpow_zero] at this
  have hPden : 0 < (q2Mul (fval F tolpat) (fval F (scale2 F x x))).2 :=
    q2Mul_den_pos htd hsd
  have hPv : qv (q2Mul (fval F tolpat) (fval F (scale2 F x x)))
      = qv (fval F tolpat) * qv (fval F (scale2 F x x)) := qv_mul htd hsd
  have hPmin : (2 : ℚ) ^ minExp F
      ≤ qv (q2Mul (fval F tolpat) (fval F (scale2 F x x))) := by
    rw [hPv]
    calc (2 : ℚ) ^ minExp F
        ≤ qv (fval F tolpat) * (2 : ℚ) ^ ((1 : Int) - EXPONENT_BIAS F) := hts'
      _ ≤ qv (fval F tolpat) * qv (fval F (scale2 F x x)) :=
          mul_le_mul_of_nonneg_left hscale.2.1 (le_of_lt htpos')
  have hPhigh : qv (q2Mul (fval F tolpat) (fval F (scale2 F x x)))
      < (2 : ℚ) ^ elogBound F := by
    rw [hPv]
    calc qv (fval F tolpat) * qv (fval F (scale2 F x x))
        < 1 * (2 : ℚ) ^ ((EXPONENT_BIAS F : Int) + 1) :=
          mul_lt_mul htlt' (le_of_lt hscale.2.2) hspos (by norm_num)
      _ = (2 : ℚ) ^ ((EXPONENT_BIAS F : Int) + 1) := one_mul _
      _ ≤ (2 : ℚ) ^ elogBound F := zpow_le_zpow_right₀ one_le_two hF.biasp1_le_B
  have hPnum : 0 < (q2Mul (fval F tolpat) (fval F (scale2 F x x))).1 := by
    apply mul_pos htpos
    exact (qv_pos_iff hsd).mp hspos
  have hPround : fround F (q2Mul (fval F tolpat) (fval F (scale2 F x x)))
      = roundMag F (q2Mul (fval F tolpat) (fval F (scale2 F x x))) := by
    unfold fround
    rw [if_neg (by omega), if_pos hPnum]
  have hrspec := roundMag_spec F hF _ hPden
    (le_trans (zpow_le_zpow_right₀ one_le_two hF.minExp_ge) hPmin) hPhigh
  -- assemble
  unfold eq_with_tol_impl
  rw [eq_fuel_finite hF hx hx, hsub0, hmulred, hPround]
  have habs0 : abs F 0 = 0 := Nat.zero_mod _
  rw [habs0, fltb_iff]
  have h0fin : expF F 0 ≠ allOnes F := by
    rw [(zero_fields F).2.1]
    omega
  refine ⟨isNaNb_false_of_fin h0fin, hrspec.2.1, ?_⟩
  have h0v : qv (xval F 0) = 0 := by
    rw [xval_of_not_inf (isInfb_false_of_fin h0fin), qv_fval, (zero_fields F).1,
      if_neg (by omega), magQ_zero]
  rw [h0v]
  exact hrspec.2.2.1 hPmin

/-- **C8.**  For every finite (non-NaN, non-infinite) bit pattern `x` of
either width — zero and subnormals included — `equal(x, x)` under the
default tolerance returns `true`. -/
theorem claim8_reflexivity :
    (∀ x : Nat, isFinb F32 x = true → almost_equals32 x x = true) ∧
      (∀ x : Nat, isFinb F64 x = true → almost_equals64 x x = true) := by
  constructor
  · intro x hx
    exact reflexive_with_tol F32 goodF_F32 F32_TOLERANCE (by decide) (by decide)
      (by decide) (by decide) x hx
  · intro x hx
    exact reflexive_with_tol F64 goodF_F64 F64_TOLERANCE (by decide) (by decide)
      (by decide) (by decide) x hx

/-- Witness for C8: `equal(MAX, MAX)` for `f64` is `true`. -/
theorem claim8_witness :
    isFinb F64 (MAX_BITS F64) = true ∧
      almost_equals64 (MAX_BITS F64) (MAX_BITS F64) = true :=
  ⟨by decide, claim8_reflexivity.2 (MAX_BITS F64) (by decide)⟩

/-!  ### Claim C9: the recursion is bounded at depth 1 -/

theorem goodF.minExp_ge1 {F : FpFormat} (hF : goodF F) :
    -(elogBound F) ≤ minExp F - 1 := by
  unfold elogBound minExp
  have hb1 : (2 : Int) * EXPONENT_BIAS F + 1 = (allOnes F : Int) := by
    exact_mod_cast hF.bias_eq
  have h2 : ((allOnes F : Nat) : Int) < ((2 ^ EXPONENT_SIZE F : Nat) : Int) := by
    exact_mod_cast hF.allOnes_lt
  push_cast
  push_cast at h2
  omega

/-- Fields of a pattern with the sign bit set on top of a sign-free part. -/
theorem signbit_add_fields (F : FpFormat) (hF : goodF F) {r : Nat}
    (hr : r < 2 ^ (F.totalBits - 1)) :
    signF F (SIGN_BIT F + r) = 1 ∧ expF F (SIGN_BIT F + r) = expF F r ∧
      fracF F (SIGN_BIT F + r) = fracF F r := by
  rw [SIGN_BIT_eq]
  refine ⟨?_, ?_, ?_⟩
  · unfold signF
    have h1 : 2 ^ (F.totalBits - 1) + r = 2 ^ (F.totalBits - 1) * 1 + r := by ring
    rw [h1, Nat.mul_add_div (Nat.pos_pow_of_pos _ (by omega)), Nat.div_eq_of_lt hr]
  · unfold expF
    rw [hF.w1_eq, pow_add]
    rw [Nat.mul_add_div (Nat.pos_pow_of_pos _ (by omega)), Nat.add_mod_left]
  · unfold fracF
    rw [hF.w1_eq, pow_add, Nat.mul_add_mod]

theorem fin_of_not_nan_not_inf {F : FpFormat} {a : Nat}
    (h1 : isNaNb F a = false) (h2 : isInfb F a = false) : isFinb F a = true := by
  rw [isFinb_iff]
  intro hc
  by_cases hf : fracF F a = 0
  · rw [(isInfb_iff F a).mpr ⟨hc, hf⟩] at h2
    exact Bool.noConfusion h2
  · rw [(isNaNb_iff F a).mpr ⟨hc, hf⟩] at h1
    exact Bool.noConfusion h1

theorem inf_of_not_nan_not_fin {F : FpFormat} {a : Nat}
    (h1 : isNaNb F a = false) (h2 : isFinb F a = false) : isInfb F a = true := by
  have he : expF F a = allOnes F := by
    by_contra hc
    rw [(isFinb_iff F a).mpr hc] at h2
    exact Bool.noConfusion h2
  rw [isInfb_iff]
  refine ⟨he, ?_⟩
  by_contra hf
  rw [(isNaNb_iff F a).mpr ⟨he, hf⟩] at h1
  exact Bool.noConfusion h1

theorem fval_num_eq_zero_iff (F : FpFormat) (a : Nat) :
    (fval F a).1 = 0 ↔ (expF F a = 0 ∧ fracF F a = 0) := by
  rw [← qv_eq_zero_iff (fval_den_pos F a), qv_fval]
  constructor
  · intro h
    have hm : magQ F a = 0 := by
      split at h
      · exact neg_eq_zero.mp h
      · exact h
    unfold magQ at hm
    split at hm
    · rename_i h0
      refine ⟨h0, ?_⟩
      have h2 := zpow_pos (two_pos (α := ℚ)) (minExp F)
      rcases mul_eq_zero.mp hm with h3 | h3
      · exact_mod_cast h3
      · exact absurd h3 (ne_of_gt h2)
    · exfalso
      have h2 := zpow_pos (two_pos (α := ℚ)) ((expF F a : Int) - EXPONENT_BIAS F - F.sigBits)
      have h3 : (0 : ℚ) < ((2 ^ F.sigBits + fracF F a : Nat) : ℚ) := by
        have h4 : 0 < 2 ^ F.sigBits + fracF F a :=
          Nat.add_pos_left (Nat.pos_pow_of_pos _ (by omega)) _
        exact_mod_cast h4
      nlinarith
  · rintro ⟨h0, hf⟩
    have hm : magQ F a = 0 := by
      unfold magQ
      rw [if_pos h0, hf]
      simp
    rw [hm]
    split <;> simp

theorem abs_qv_fval (F : FpFormat) (a : Nat) : |qv (fval F a)| = magQ F a := by
  rw [qv_fval]
  split
  · rw [abs_neg, abs_of_nonneg (magQ_nonneg F a)]
  · rw [abs_of_nonneg (magQ_nonneg F a)]

theorem RHS_RESCALE_fin (F : FpFormat) (hF : goodF F) :
    isFinb F (RHS_RESCALE_BITS F) = true := by
  rw [isFinb_iff, (RHS_RESCALE_fields F hF).2.1]
  have := hF.bias_eq
  have := hF.bias_ge
  omega

theorem magQ_RHS_RESCALE (F : FpFormat) (hF : goodF F) :
    magQ F (RHS_RESCALE_BITS F) = (2 : ℚ) ^ (-1 : Int) := by
  obtain ⟨hs, he, hf⟩ := RHS_RESCALE_fields F hF
  have hb := hF.bias_ge
  unfold magQ
  rw [he, hf, if_neg (by omega)]
  have htwo : (2 : ℚ) ≠ 0 := by norm_num
  have hexp : ((EXPONENT_BIAS F - 1 : Nat) : Int) - EXPONENT_BIAS F - F.sigBits
      = -1 - F.sigBits := by
    have h1 : ((EXPONENT_BIAS F - 1 : Nat) : Int) = (EXPONENT_BIAS F : Int) - 1 := by
      omega
    omega
  rw [add_zero, hexp, ← pow2cast, ← zpow_add₀ htwo]
  congr 1
  omega

theorem qv_fval_RHS_RESCALE (F : FpFormat) (hF : goodF F) :
    qv (fval F (RHS_RESCALE_BITS F)) = (2 : ℚ) ^ (-1 : Int) := by
  rw [qv_fval, (RHS_RESCALE_fields F hF).1, if_neg (by omega), magQ_RHS_RESCALE F hF]

/-- Rounding a value whose magnitude is in the representable range (or an
exact zero) yields a finite pattern. -/
theorem isFinb_fround (F : FpFormat) (hF : goodF F) {q : Q2} (hq2 : 0 < q.2)
    (hrange : q.1 ≠ 0 → ((2 : ℚ) ^ (-(elogBound F)) ≤ |qv q| ∧
      |qv q| < (2 : ℚ) ^ (EXPONENT_BIAS F : Int))) :
    isFinb F (fround F q) = true := by
  have h7 := hF.allOnes_ge7
  have hBle : (2 : ℚ) ^ (EXPONENT_BIAS F : Int) ≤ (2 : ℚ) ^ elogBound F :=
    zpow_le_zpow_right₀ one_le_two (by have := hF.biasp1_le_B; omega)
  unfold fround
  split
  · rw [isFinb_iff, (zero_fields F).2.1]
    omega
  · rename_i h0
    split
    · rename_i hpos
      obtain ⟨hl, hh⟩ := hrange h0
      rw [abs_of_pos ((qv_pos_iff hq2).mpr hpos)] at hl hh
      have hspec := roundMag_spec F hF q hq2 hl (lt_of_lt_of_le hh hBle)
      rw [isFinb_iff]
      exact hspec.2.2.2 hh
    · rename_i hpos
      have hneg : q.1 < 0 := by omega
      obtain ⟨hl, hh⟩ := hrange h0
      have hqvneg : qv q < 0 := (qv_neg_iff hq2).mpr hneg
      rw [abs_of_neg hqvneg] at hl hh
      have hnd : 0 < (q2Neg q).2 := hq2
      have hnv : qv (q2Neg q) = -qv q := qv_neg q
      rw [← hnv] at hl hh
      have hspec := roundMag_spec F hF (q2Neg q) hnd hl (lt_of_lt_of_le hh hBle)
      have hfields := signbit_add_fields F hF hspec.1
      rw [isFinb_iff, hfields.2.1]
      exact hspec.2.2.2 hh

/-- Magnitude range of the product of a finite value with the rescale factor
`2^(-1)`, when the product is not exactly zero. -/
theorem half_prod_range (F : FpFormat) (hF : goodF F) {b : Nat}
    (hb : isFinb F b = true)
    (hP0 : (q2Mul (fval F b) (fval F (RHS_RESCALE_BITS F))).1 ≠ 0) :
    (2 : ℚ) ^ (-(elogBound F)) ≤ |qv (q2Mul (fval F b) (fval F (RHS_RESCALE_BITS F)))| ∧
      |qv (q2Mul (fval F b) (fval F (RHS_RESCALE_BITS F)))|
        < (2 : ℚ) ^ (EXPONENT_BIAS F : Int) := by
  have hbfin := (isFinb_iff F b).mp hb
  have hbd := fval_den_pos F b
  have hhd := fval_den_pos F (RHS_RESCALE_BITS F)
  have hvb : (fval F b).1 ≠ 0 := by
    intro hc
    apply hP0
    have : (q2Mul (fval F b) (fval F (RHS_RESCALE_BITS F))).1
        = (fval F b).1 * (fval F (RHS_RESCALE_BITS F)).1 := rfl
    rw [this, hc, zero_mul]
  have hnz : ¬(expF F b = 0 ∧ fracF F b = 0) := by
    intro hc
    exact hvb ((fval_num_eq_zero_iff F b).mpr hc)
  have habsP : |qv (q2Mul (fval F b) (fval F (RHS_RESCALE_BITS F)))|
      = magQ F b * (2 : ℚ) ^ (-1 : Int) := by
    rw [qv_mul hbd hhd, abs_mul, abs_qv_fval, qv_fval_RHS_RESCALE F hF,
      abs_of_pos (zpow_pos (two_pos (α := ℚ)) _)]
  rw [habsP]
  constructor
  · calc (2 : ℚ) ^ (-(elogBound F))
        ≤ (2 : ℚ) ^ (minExp F - 1) := zpow_le_zpow_right₀ one_le_two hF.minExp_ge1
      _ = (2 : ℚ) ^ minExp F * (2 : ℚ) ^ (-1 : Int) := by
          rw [← zpow_add₀ (by norm_num : (2 : ℚ) ≠ 0)]
          congr 1
      _ ≤ magQ F b * (2 : ℚ) ^ (-1 : Int) :=
          mul_le_mul_of_nonneg_right (magQ_ge F b hnz)
            (le_of_lt (zpow_pos (two_pos (α := ℚ)) _))
  · calc magQ F b * (2 : ℚ) ^ (-1 : Int)
        < (2 : ℚ) ^ ((EXPONENT_BIAS F : Int) + 1) * (2 : ℚ) ^ (-1 : Int) :=
          mul_lt_mul_of_pos_right (magQ_lt F hF b hbfin)
            (zpow_pos (two_pos (α := ℚ)) _)
      _ = (2 : ℚ) ^ (EXPONENT_BIAS F : Int) := by
          rw [← zpow_add₀ (by norm_num : (2 : ℚ) ≠ 0)]
          congr 1
          omega

/-- Multiplying any finite pattern by the rescale factor `2^(-1)` yields a
finite pattern. -/
theorem fmul_half_finite (F : FpFormat) (hF : goodF F) {b : Nat}
    (hb : isFinb F b = true) :
    isFinb F (fmul F b (RHS_RESCALE_BITS F)) = true := by
  have hbfin := (isFinb_iff F b).mp hb
  have hhfin := (isFinb_iff F (RHS_RESCALE_BITS F)).mp (RHS_RESCALE_fin F hF)
  have hmulred : fmul F b (RHS_RESCALE_BITS F)
      = fround F (q2Mul (fval F b) (fval F (RHS_RESCALE_BITS F))) := by
    unfold fmul
    rw [classify_fin hbfin, classify_fin hhfin]
  rw [hmulred]
  have hbd := fval_den_pos F b
  have hhd := fval_den_pos F (RHS_RESCALE_BITS F)
  apply isFinb_fround F hF (q2Mul_den_pos hbd hhd)
  intro hP0
  exact half_prod_range F hF hb hP0

theorem rescaled_lhs_fin (F : FpFormat) (hF : goodF F) (lhs : Nat) :
    isFinb F (rescaled_lhs F lhs) = true := by
  rw [isFinb_iff, (rescaled_lhs_fields F hF lhs).2.1]
  have := hF.allOnes_ge7
  omega

/-- Fuel independence: fuel 2 computes the fixed point of the recursion. -/
theorem fuel_indep (F : FpFormat) (hF : goodF F) (lhs rhs tol fuel : Nat) :
    eq_with_tol_fuel F (2 + fuel) lhs rhs tol = eq_with_tol_fuel F 2 lhs rhs tol := by
  have h2eq : (2 : Nat) = 1 + 1 := rfl
  have h2feq : 2 + fuel = (1 + fuel) + 1 := by omega
  have h1eq : (1 : Nat) = 0 + 1 := rfl
  have h1feq : 1 + fuel = fuel + 1 := by omega
  by_cases hguard : (fltb F (abs F lhs) (INFINITY_BITS F)
      && fltb F (abs F rhs) (INFINITY_BITS F)) = true
  · rw [Bool.and_eq_true] at hguard
    obtain ⟨hg1, hg2⟩ := hguard
    have hlf := (finite_guard_iff F hF lhs).mp hg1
    have hrf := (finite_guard_iff F hF rhs).mp hg2
    rw [h2feq, eq_fuel_finite hF hlf hrf, h2eq, eq_fuel_finite hF hlf hrf]
  · have hguard' : (fltb F (abs F lhs) (INFINITY_BITS F)
        && fltb F (abs F rhs) (INFINITY_BITS F)) = false := by
      rcases Bool.eq_false_or_eq_true (fltb F (abs F lhs) (INFINITY_BITS F)
        && fltb F (abs F rhs) (INFINITY_BITS F)) with h | h
      · exact absurd h hguard
      · exact h
    rw [h2feq, eq_fuel_nonfinite hguard', h2eq, eq_fuel_nonfinite hguard']
    unfold handle_not_finite
    split
    · rfl
    rename_i hnan
    have hnanb : (isNaNb F lhs || isNaNb F rhs) = false := by
      rcases Bool.eq_false_or_eq_true (isNaNb F lhs || isNaNb F rhs) with h | h
      · exact absurd h hnan
      · exact h
    have hnl : isNaNb F lhs = false := by
      cases h : isNaNb F lhs
      · rfl
      · rw [h] at hnanb
        simp at hnanb
    have hnr : isNaNb F rhs = false := by
      cases h : isNaNb F rhs
      · rfl
      · rw [h] at hnanb
        simp at hnanb
    split
    · rfl
    rename_i hnotboth
    have hnbb : (isInfb F lhs && isInfb F rhs) = false := by
      rcases Bool.eq_false_or_eq_true (isInfb F lhs && isInfb F rhs) with h | h
      · exact absurd h hnotboth
      · exact h
    split
    · rename_i hinl
      have hinr : isInfb F rhs = false := by
        rw [hinl] at hnbb
        simpa using hnbb
      have hrfin : isFinb F rhs = true := fin_of_not_nan_not_inf hnr hinr
      unfold rescale_retry
      split
      · rfl
      · have hfin1 := rescaled_lhs_fin F hF lhs
        have hfin2 := fmul_half_finite F hF hrfin
        rw [h1feq, eq_fuel_finite hF hfin1 hfin2, h1eq, eq_fuel_finite hF hfin1 hfin2]
    · rename_i hinl
      have hinl' : isInfb F lhs = false := by
        rcases Bool.eq_false_or_eq_true (isInfb F lhs) with h | h
        · exact absurd h hinl
        · exact h
      have hlfin : isFinb F lhs = true := fin_of_not_nan_not_inf hnl hinl'
      have hrnofin : isFinb F rhs = false := by
        rcases Bool.eq_false_or_eq_true (isFinb F rhs) with h | h
        · exfalso
          have hg1 := (finite_guard_iff F hF lhs).mpr hlfin
          have hg2 := (finite_guard_iff F hF rhs).mpr h
          rw [hg1, hg2] at hguard'
          simp at hguard'
        · exact h
      have hinr : isInfb F rhs = true := inf_of_not_nan_not_fin hnr hrnofin
      unfold rescale_retry
      split
      · rfl
      · have hfin1 := rescaled_lhs_fin F hF rhs
        have hfin2 := fmul_half_finite F hF hlfin
        rw [h1feq, eq_fuel_finite hF hfin1 hfin2, h1eq, eq_fuel_finite hF hfin1 hfin2]

/-- **C9.**  The recursion depth of `eq_with_tol_impl` is statically bounded
at 1: fuel 2 already computes the fixed point of the fuel-indexed recursion
(first conjunct), and the only recursive call — from the rescale-and-retry
branch — receives two finite arguments (`new_lhs` finite by construction,
`new_rhs` the rounded product of a finite value with `2^(-1)`), so the
retried comparison takes the finite path and never recurses again (second
conjunct). -/
theorem claim9_bounded_recursion :
    (∀ (F : FpFormat), goodF F → ∀ lhs rhs tol fuel : Nat,
      eq_with_tol_fuel F (2 + fuel) lhs rhs tol = eq_with_tol_impl F lhs rhs tol) ∧
    (∀ (F : FpFormat), goodF F → ∀ lhs rhs : Nat,
      isInfb F lhs = true → isFinb F rhs = true → expF F rhs ≠ 0 →
        isFinb F (rescaled_lhs F lhs) = true ∧
          isFinb F (fmul F rhs (RHS_RESCALE_BITS F)) = true) := by
  constructor
  · intro F hF lhs rhs tol fuel
    exact fuel_indep F hF lhs rhs tol fuel
  · intro F hF lhs rhs hinf hfin hexp
    exact ⟨rescaled_lhs_fin F hF lhs, fmul_half_finite F hF hfin⟩

/-!  ### Claim C10: sign invariance -/

theorem q2Neg_q2Neg (q : Q2) : q2Neg (q2Neg q) = q := by
  unfold q2Neg
  simp

theorem q2Sub_neg_neg (a b : Q2) : q2Sub (q2Neg a) (q2Neg b) = q2Neg (q2Sub a b) := by
  unfold q2Sub q2Neg
  simp only [Prod.mk.injEq]
  exact ⟨by ring, trivial⟩

theorem q2Sub_neg_zero {b : Q2} (hb : b.1 = 0) (a : Q2) :
    q2Sub (q2Neg a) b = q2Neg (q2Sub a b) := by
  unfold q2Sub q2Neg
  simp only [Prod.mk.injEq]
  refine ⟨?_, trivial⟩
  rw [hb]
  ring

theorem q2Mul_neg_left (a b : Q2) : q2Mul (q2Neg a) b = q2Neg (q2Mul a b) := by
  unfold q2Mul q2Neg
  simp only [Prod.mk.injEq]
  exact ⟨by ring, trivial⟩

theorem q2Eq_neg_neg (a b : Q2) : q2Eq (q2Neg a) (q2Neg b) = q2Eq a b := by
  unfold q2Eq q2Neg
  rw [decide_eq_decide, neg_mul, neg_mul]
  exact neg_inj

theorem fneg_abs_part (F : FpFormat) (a : Nat) : a % SIGN_BIT F = abs F a := by
  rw [SIGN_BIT_eq]
  rfl

theorem signF_lt_two (F : FpFormat) (a : Nat) : signF F a < 2 := by
  unfold signF
  exact Nat.mod_lt _ (by omega)

theorem abs_lt_signBit (F : FpFormat) (a : Nat) :
    abs F a < 2 ^ (F.totalBits - 1) := by
  unfold abs
  exact Nat.mod_lt _ (Nat.pos_pow_of_pos _ (by omega))

theorem abs_of_lt_signBit {F : FpFormat} {x : Nat} (h : x < 2 ^ (F.totalBits - 1)) :
    abs F x = x := by
  unfold abs
  exact Nat.mod_eq_of_lt h

theorem signF_of_lt {F : FpFormat} {x : Nat} (h : x < 2 ^ (F.totalBits - 1)) :
    signF F x = 0 := by
  unfold signF
  rw [Nat.div_eq_of_lt h]

/-- Negation (`(1 - sign) << (w-1) | abs`) flips the sign field and
preserves the exponent and significand fields. -/
theorem fneg_fields (F : FpFormat) (hF : goodF F) (a : Nat) :
    signF F (fneg F a) = 1 - signF F a ∧ expF F (fneg F a) = expF F a ∧
      fracF F (fneg F a) = fracF F a := by
  have hslt := signF_lt_two F a
  have hlt := abs_lt_signBit F a
  rcases (by omega : signF F a = 0 ∨ signF F a = 1) with h0 | h1
  · have he : fneg F a = SIGN_BIT F + abs F a := by
      unfold fneg
      rw [fneg_abs_part, h0]
      ring
    obtain ⟨hs, hexp, hfr⟩ := signbit_add_fields F hF hlt
    rw [he, hs, hexp, hfr, expF_abs F hF, fracF_abs F hF, h0]
    exact ⟨rfl, rfl, rfl⟩
  · have he : fneg F a = abs F a := by
      unfold fneg
      rw [fneg_abs_part, h1]
      ring
    rw [he, signF_abs, expF_abs F hF, fracF_abs F hF, h1]
    exact ⟨rfl, rfl, rfl⟩

theorem isNaNb_fneg (F : FpFormat) (hF : goodF F) (a : Nat) :
    isNaNb F (fneg F a) = isNaNb F a := by
  obtain ⟨_, he, hf⟩ := fneg_fields F hF a
  unfold isNaNb
  rw [he, hf]

theorem isInfb_fneg (F : FpFormat) (hF : goodF F) (a : Nat) :
    isInfb F (fneg F a) = isInfb F a := by
  obtain ⟨_, he, hf⟩ := fneg_fields F hF a
  unfold isInfb
  rw [he, hf]

theorem isFinb_fneg (F : FpFormat) (hF : goodF F) (a : Nat) :
    isFinb F (fneg F a) = isFinb F a := by
  obtain ⟨_, he, _⟩ := fneg_fields F hF a
  unfold isFinb
  rw [he]

theorem abs_fneg (F : FpFormat) (_hF : goodF F) (a : Nat) :
    abs F (fneg F a) = abs F a := by
  unfold fneg
  rw [fneg_abs_part, SIGN_BIT_eq]
  unfold abs
  rw [Nat.mul_comm, Nat.mul_add_mod, Nat.mod_mod_of_dvd _ (dvd_refl _)]

/-- The exact value of a negated pattern is the negated fraction, as a pair. -/
theorem fval_fneg (F : FpFormat) (hF : goodF F) (a : Nat) :
    fval F (fneg F a) = q2Neg (fval F a) := by
  obtain ⟨hs, he, hf⟩ := fneg_fields F hF a
  have hslt := signF_lt_two F a
  simp only [fval, q2Mul, q2Neg]
  rw [hs, he, hf]
  rcases (by omega : signF F a = 0 ∨ signF F a = 1) with h0 | h1
  · rw [h0, if_pos (show (1 : ℕ) - 0 = 1 from rfl),
      if_neg (show ¬(0 : ℕ) = 1 by omega)]
    simp only [Prod.mk.injEq]
    exact ⟨by ring, trivial⟩
  · rw [h1, if_neg (show ¬(1 : ℕ) - 1 = 1 by omega),
      if_pos (show (1 : ℕ) = 1 from rfl)]
    simp only [Prod.mk.injEq]
    exact ⟨by ring, trivial⟩

theorem xval_fneg (F : FpFormat) (hF : goodF F) (a : Nat) :
    xval F (fneg F a) = q2Neg (xval F a) := by
  have hslt := signF_lt_two F a
  obtain ⟨hs, _, _⟩ := fneg_fields F hF a
  unfold xval
  rw [isInfb_fneg F hF a, hs]
  cases hi : isInfb F a
  · simp only [Bool.false_eq_true, if_false]
    exact fval_fneg F hF a
  · simp only [if_true]
    rcases (by omega : signF F a = 0 ∨ signF F a = 1) with h0 | h1
    · rw [h0, if_pos rfl, if_neg (by omega : ¬(0 : ℕ) = 1)]
    · rw [h1, if_neg (by omega : ¬(1 : ℕ) - 1 = 1), if_pos rfl, q2Neg_q2Neg]

theorem feqb_fneg (F : FpFormat) (hF : goodF F) (a b : Nat) :
    feqb F (fneg F a) (fneg F b) = feqb F a b := by
  unfold feqb
  rw [isNaNb_fneg F hF a, isNaNb_fneg F hF b, xval_fneg F hF a, xval_fneg F hF b,
    q2Eq_neg_neg]

/-- The sign-free part of a rounded fraction ignores the fraction's sign. -/
theorem abs_fround_neg (F : FpFormat) (q : Q2) :
    abs F (fround F (q2Neg q)) = abs F (fround F q) := by
  rcases lt_trichotomy q.1 0 with hneg | h0 | hpos
  · have h1 : ¬q.1 = 0 := by omega
    have h2 : ¬0 < q.1 := by omega
    have h3 : (q2Neg q).1 = -q.1 := rfl
    have h4 : ¬(q2Neg q).1 = 0 := by rw [h3]; omega
    have h5 : 0 < (q2Neg q).1 := by rw [h3]; omega
    unfold fround
    rw [if_neg h4, if_pos h5, if_neg h1, if_neg h2]
    unfold abs
    rw [SIGN_BIT_eq, Nat.add_mod_left]
  · have h3 : (q2Neg q).1 = -q.1 := rfl
    have h4 : (q2Neg q).1 = 0 := by rw [h3]; omega
    unfold fround
    rw [if_pos h4, if_pos h0]
  · have h1 : ¬q.1 = 0 := by omega
    have h3 : (q2Neg q).1 = -q.1 := rfl
    have h4 : ¬(q2Neg q).1 = 0 := by rw [h3]; omega
    have h5 : ¬0 < (q2Neg q).1 := by rw [h3]; omega
    unfold fround
    rw [if_neg h4, if_neg h5, if_neg h1, if_pos hpos, q2Neg_q2Neg]
    unfold abs
    rw [SIGN_BIT_eq, Nat.add_mod_left]

/-- Within the representable range, rounding the negated fraction is the
sign-flip of rounding the fraction. -/
theorem fround_neg_eq_fneg (F : FpFormat) (hF : goodF F) {q : Q2} (hq2 : 0 < q.2)
    (h0 : q.1 ≠ 0)
    (hlow : (2 : ℚ) ^ (-(elogBound F)) ≤ |qv q|)
    (hhigh : |qv q| < (2 : ℚ) ^ elogBound F) :
    fround F (q2Neg q) = fneg F (fround F q) := by
  rcases lt_trichotomy q.1 0 with hneg | hz | hpos
  · have hm2 : 0 < (q2Neg q).2 := hq2
    have habs : |qv q| = qv (q2Neg q) := by
      rw [qv_neg q, abs_of_neg ((qv_neg_iff hq2).mpr hneg)]
    rw [habs] at hlow hhigh
    have hspec := roundMag_spec F hF (q2Neg q) hm2 hlow hhigh
    have hrlt := hspec.1
    have h3 : (q2Neg q).1 = -q.1 := rfl
    have h5 : ¬(q2Neg q).1 = 0 := by rw [h3]; omega
    have h6 : 0 < (q2Neg q).1 := by rw [h3]; omega
    have h8 : ¬0 < q.1 := by omega
    unfold fround
    rw [if_neg h5, if_pos h6, if_neg h0, if_neg h8]
    obtain ⟨hs, _, _⟩ := signbit_add_fields F hF hrlt
    unfold fneg
    rw [fneg_abs_part, hs]
    have habs2 : abs F (SIGN_BIT F + roundMag F (q2Neg q)) = roundMag F (q2Neg q) := by
      unfold abs
      rw [SIGN_BIT_eq, Nat.add_mod_left, Nat.mod_eq_of_lt hrlt]
    rw [habs2]
    omega
  · exact absurd hz h0
  · have habs : |qv q| = qv q := abs_of_pos ((qv_pos_iff hq2).mpr hpos)
    rw [habs] at hlow hhigh
    have hspec := roundMag_spec F hF q hq2 hlow hhigh
    have hrlt := hspec.1
    have h3 : (q2Neg q).1 = -q.1 := rfl
    have h5 : ¬(q2Neg q).1 = 0 := by rw [h3]; omega
    have h6 : ¬0 < (q2Neg q).1 := by rw [h3]; omega
    unfold fround
    rw [if_neg h5, if_neg h6, if_neg h0, if_pos hpos, q2Neg_q2Neg]
    unfold fneg
    rw [fneg_abs_part, signF_of_lt hrlt, abs_of_lt_signBit hrlt]
    omega

/-- The finite-path comparison is invariant under negating both operands. -/
theorem finite_cmp_fneg (F : FpFormat) (hF : goodF F) {x y : Nat} (tol : Nat)
    (hx : isFinb F x = true) (hy : isFinb F y = true) :
    fltb F (abs F (fsub F (fneg F x) (fneg F y)))
        (fmul F tol (scale2 F (fneg F x) (fneg F y)))
      = fltb F (abs F (fsub F x y)) (fmul F tol (scale2 F x y)) := by
  have hax := abs_fneg F hF x
  have hay := abs_fneg F hF y
  have hscale1 : scale1 F (fneg F x) (fneg F y) = scale1 F x y := by
    unfold scale1
    rw [hax, hay]
  have hscale : scale2 F (fneg F x) (fneg F y) = scale2 F x y := by
    unfold scale2
    rw [hscale1]
  have hx' := (isFinb_iff F x).mp hx
  have hy' := (isFinb_iff F y).mp hy
  have hxn := (isFinb_iff F (fneg F x)).mp (by rw [isFinb_fneg F hF x]; exact hx)
  have hyn := (isFinb_iff F (fneg F y)).mp (by rw [isFinb_fneg F hF y]; exact hy)
  have hsub1 : fsub F (fneg F x) (fneg F y)
      = fround F (q2Sub (fval F (fneg F x)) (fval F (fneg F y))) := by
    unfold fsub
    rw [classify_fin hxn, classify_fin hyn]
  have hsub2 : fsub F x y = fround F (q2Sub (fval F x) (fval F y)) := by
    unfold fsub
    rw [classify_fin hx', classify_fin hy']
  have habs : abs F (fsub F (fneg F x) (fneg F y)) = abs F (fsub F x y) := by
    rw [hsub1, hsub2, fval_fneg F hF x, fval_fneg F hF y, q2Sub_neg_neg,
      abs_fround_neg]
  rw [habs, hscale]

/-- The finite-path comparison against an exact-zero right operand is
invariant under negating the left operand. -/
theorem finite_cmp_fneg_left (F : FpFormat) (hF : goodF F) {x y : Nat} (tol : Nat)
    (hx : isFinb F x = true) (hy : isFinb F y = true) (hy0 : (fval F y).1 = 0) :
    fltb F (abs F (fsub F (fneg F x) y)) (fmul F tol (scale2 F (fneg F x) y))
      = fltb F (abs F (fsub F x y)) (fmul F tol (scale2 F x y)) := by
  have hax := abs_fneg F hF x
  have hscale1 : scale1 F (fneg F x) y = scale1 F x y := by
    unfold scale1
    rw [hax]
  have hscale : scale2 F (fneg F x) y = scale2 F x y := by
    unfold scale2
    rw [hscale1]
  have hx' := (isFinb_iff F x).mp hx
  have hy' := (isFinb_iff F y).mp hy
  have hxn := (isFinb_iff F (fneg F x)).mp (by rw [isFinb_fneg F hF x]; exact hx)
  have hsub1 : fsub F (fneg F x) y
      = fround F (q2Sub (fval F (fneg F x)) (fval F y)) := by
    unfold fsub
    rw [classify_fin hxn, classify_fin hy']
  have hsub2 : fsub F x y = fround F (q2Sub (fval F x) (fval F y)) := by
    unfold fsub
    rw [classify_fin hx', classify_fin hy']
  have habs : abs F (fsub F (fneg F x) y) = abs F (fsub F x y) := by
    rw [hsub1, hsub2, fval_fneg F hF x, q2Sub_neg_zero hy0, abs_fround_neg]
  rw [habs, hscale]

/-- Negation commutes with the `new_lhs` construction of the rescale step. -/
theorem rescaled_fneg (F : FpFormat) (hF : goodF F) (l : Nat) :
    rescaled_lhs F (fneg F l) = fneg F (rescaled_lhs F l) := by
  have hslt := signF_lt_two F l
  have hE : expF F (MAX_BITS F) * 2 ^ F.sigBits < 2 ^ (F.totalBits - 1) := by
    have h1 : expF F (MAX_BITS F) < 2 ^ EXPONENT_SIZE F := by
      unfold expF
      exact Nat.mod_lt _ (Nat.pos_pow_of_pos _ (by omega))
    have h2 := pat_lt_signBit hF h1 (Nat.pos_pow_of_pos F.sigBits (by omega))
    omega
  have hsr : signF F (rescaled_lhs F l) = signF F l := (rescaled_lhs_fields F hF l).1
  have hL : rescaled_lhs F (fneg F l)
      = expF F (MAX_BITS F) * 2 ^ F.sigBits + (1 - signF F l) * SIGN_BIT F := by
    unfold rescaled_lhs
    rw [(fneg_fields F hF l).1]
  have hR : fneg F (rescaled_lhs F l)
      = (1 - signF F l) * SIGN_BIT F + expF F (MAX_BITS F) * 2 ^ F.sigBits := by
    unfold fneg
    rw [fneg_abs_part, hsr]
    congr 1
    unfold rescaled_lhs abs
    rw [SIGN_BIT_eq, Nat.mul_comm (signF F l), Nat.add_mul_mod_self_left,
      Nat.mod_eq_of_lt hE]
  rw [hL, hR, Nat.add_comm]

/-- The retried comparison of the rescale step is invariant under negating
the original operands. -/
theorem retry_fneg (F : FpFormat) (hF : goodF F) (l r tol : Nat)
    (hrfin : isFinb F r = true) :
    eq_with_tol_fuel F 1 (rescaled_lhs F (fneg F l))
        (fmul F (fneg F r) (RHS_RESCALE_BITS F)) tol
      = eq_with_tol_fuel F 1 (rescaled_lhs F l) (fmul F r (RHS_RESCALE_BITS F)) tol := by
  have hresc := rescaled_fneg F hF l
  have hrfin' := (isFinb_iff F r).mp hrfin
  have hhfin' := (isFinb_iff F (RHS_RESCALE_BITS F)).mp (RHS_RESCALE_fin F hF)
  have hrn : isFinb F (fneg F r) = true := by
    rw [isFinb_fneg F hF r]
    exact hrfin
  have hrn' := (isFinb_iff F (fneg F r)).mp hrn
  have hmul1 : fmul F (fneg F r) (RHS_RESCALE_BITS F)
      = fround F (q2Neg (q2Mul (fval F r) (fval F (RHS_RESCALE_BITS F)))) := by
    have h1 : fmul F (fneg F r) (RHS_RESCALE_BITS F)
        = fround F (q2Mul (fval F (fneg F r)) (fval F (RHS_RESCALE_BITS F))) := by
      unfold fmul
      rw [classify_fin hrn', classify_fin hhfin']
    rw [h1, fval_fneg F hF r, q2Mul_neg_left]
  have hmul2 : fmul F r (RHS_RESCALE_BITS F)
      = fround F (q2Mul (fval F r) (fval F (RHS_RESCALE_BITS F))) := by
    unfold fmul
    rw [classify_fin hrfin', classify_fin hhfin']
  have hnl_fin : isFinb F (rescaled_lhs F l) = true := rescaled_lhs_fin F hF l
  have hnlneg : isFinb F (fneg F (rescaled_lhs F l)) = true := by
    rw [isFinb_fneg F hF]
    exact hnl_fin
  have h1eq : (1 : Nat) = 0 + 1 := rfl
  by_cases hP : (q2Mul (fval F r) (fval F (RHS_RESCALE_BITS F))).1 = 0
  · have hPn : (q2Neg (q2Mul (fval F r) (fval F (RHS_RESCALE_BITS F)))).1 = 0 := by
      show -(q2Mul (fval F r) (fval F (RHS_RESCALE_BITS F))).1 = 0
      omega
    have hz1 : fmul F (fneg F r) (RHS_RESCALE_BITS F) = 0 := by
      rw [hmul1]
      unfold fround
      rw [if_pos hPn]
    have hz2 : fmul F r (RHS_RESCALE_BITS F) = 0 := by
      rw [hmul2]
      unfold fround
      rw [if_pos hP]
    have h0fin : isFinb F 0 = true := by
      rw [isFinb_iff, (zero_fields F).2.1]
      have := hF.allOnes_ge7
      omega
    have hz0val : (fval F 0).1 = 0 :=
      (fval_num_eq_zero_iff F 0).mpr ⟨(zero_fields F).2.1, (zero_fields F).2.2⟩
    rw [hz1, hz2, hresc, h1eq, eq_fuel_finite hF hnlneg h0fin,
      eq_fuel_finite hF hnl_fin h0fin]
    exact finite_cmp_fneg_left F hF tol hnl_fin h0fin hz0val
  · have hPden : 0 < (q2Mul (fval F r) (fval F (RHS_RESCALE_BITS F))).2 :=
      q2Mul_den_pos (fval_den_pos F r) (fval_den_pos F (RHS_RESCALE_BITS F))
    obtain ⟨hlow, hhigh⟩ := half_prod_range F hF hrfin hP
    have hhigh' : |qv (q2Mul (fval F r) (fval F (RHS_RESCALE_BITS F)))|
        < (2 : ℚ) ^ elogBound F :=
      lt_of_lt_of_le hhigh
        (zpow_le_zpow_right₀ one_le_two (by have := hF.biasp1_le_B; omega))
    have hfr := fround_neg_eq_fneg F hF hPden hP hlow hhigh'
    have hnr_fin : isFinb F (fround F (q2Mul (fval F r) (fval F (RHS_RESCALE_BITS F))))
        = true := by
      rw [← hmul2]
      exact fmul_half_finite F hF hrfin
    have hnrneg : isFinb F
        (fneg F (fround F (q2Mul (fval F r) (fval F (RHS_RESCALE_BITS F))))) = true := by
      rw [isFinb_fneg F hF]
      exact hnr_fin
    rw [hmul1, hmul2, hfr, hresc, h1eq, eq_fuel_finite hF hnlneg hnrneg,
      eq_fuel_finite hF hnl_fin hnr_fin]
    exact finite_cmp_fneg F hF tol hnl_fin hnr_fin

/-- Sign invariance of the full comparison. -/
theorem eq_impl_fneg (F : FpFormat) (hF : goodF F) (x y tol : Nat) :
    eq_with_tol_impl F (fneg F x) (fneg F y) tol = eq_with_tol_impl F x y tol := by
  unfold eq_with_tol_impl
  have h2eq : (2 : Nat) = 1 + 1 := rfl
  by_cases hguard : (fltb F (abs F x) (INFINITY_BITS F)
      && fltb F (abs F y) (INFINITY_BITS F)) = true
  · rw [Bool.and_eq_true] at hguard
    obtain ⟨hg1, hg2⟩ := hguard
    have hxf := (finite_guard_iff F hF x).mp hg1
    have hyf := (finite_guard_iff F hF y).mp hg2
    have hxf' : isFinb F (fneg F x) = true := by
      rw [isFinb_fneg F hF x]
      exact hxf
    have hyf' : isFinb F (fneg F y) = true := by
      rw [isFinb_fneg F hF y]
      exact hyf
    rw [h2eq, eq_fuel_finite hF hxf' hyf', eq_fuel_finite hF hxf hyf]
    exact finite_cmp_fneg F hF tol hxf hyf
  · have hguard' : (fltb F (abs F x) (INFINITY_BITS F)
        && fltb F (abs F y) (INFINITY_BITS F)) = false := by
      rcases Bool.eq_false_or_eq_true (fltb F (abs F x) (INFINITY_BITS F)
        && fltb F (abs F y) (INFINITY_BITS F)) with h | h
      · exact absurd h hguard
      · exact h
    have hguardn : (fltb F (abs F (fneg F x)) (INFINITY_BITS F)
        && fltb F (abs F (fneg F y)) (INFINITY_BITS F)) = false := by
      rw [abs_fneg F hF x, abs_fneg F hF y]
      exact hguard'
    rw [h2eq, eq_fuel_nonfinite hguardn, eq_fuel_nonfinite hguard']
    unfold handle_not_finite
    rw [isNaNb_fneg F hF x, isNaNb_fneg F hF y, isInfb_fneg F hF x, isInfb_fneg F hF y,
      feqb_fneg F hF x y]
    split
    · rfl
    rename_i hnan
    have hnanb : (isNaNb F x || isNaNb F y) = false := by
      rcases Bool.eq_false_or_eq_true (isNaNb F x || isNaNb F y) with h | h
      · exact absurd h hnan
      · exact h
    have hnl : isNaNb F x = false := by
      cases h : isNaNb F x
      · rfl
      · rw [h] at hnanb
        simp at hnanb
    have hnr : isNaNb F y = false := by
      cases h : isNaNb F y
      · rfl
      · rw [h] at hnanb
        simp at hnanb
    split
    · rfl
    rename_i hnotboth
    have hnbb : (isInfb F x && isInfb F y) = false := by
      rcases Bool.eq_false_or_eq_true (isInfb F x && isInfb F y) with h | h
      · exact absurd h hnotboth
      · exact h
    split
    · rename_i hinl
      have hinr : isInfb F y = false := by
        rw [hinl] at hnbb
        simpa using hnbb
      have hyfin : isFinb F y = true := fin_of_not_nan_not_inf hnr hinr
      unfold rescale_retry
      rw [(fneg_fields F hF y).2.1]
      split
      · rfl
      · exact retry_fneg F hF x y tol hyfin
    · rename_i hinl
      have hinl' : isInfb F x = false := by
        rcases Bool.eq_false_or_eq_true (isInfb F x) with h | h
        · exact absurd h hinl
        · exact h
      have hxfin : isFinb F x = true := fin_of_not_nan_not_inf hnl hinl'
      unfold rescale_retry
      rw [(fneg_fields F hF x).2.1]
      split
      · rfl
      · exact retry_fneg F hF y x tol hxfin

/-- **C10.**  Sign invariance: negation (flipping only the sign bit) of both
operands leaves `equal_with` unchanged — across the finite path, the NaN and
infinite/infinite cases, and the rescale-and-retry path — and negating the
operand of `zero_with` leaves it unchanged, for every tolerance. -/
theorem claim10_sign_invariance :
    (∀ (F : FpFormat), goodF F → ∀ x y tol : Nat,
      eq_with_tol_impl F (fneg F x) (fneg F y) tol = eq_with_tol_impl F x y tol) ∧
    (∀ (F : FpFormat), goodF F → ∀ v tol : Nat,
      almost_zero_with F (fneg F v) tol = almost_zero_with F v tol) := by
  constructor
  · intro F hF x y tol
    exact eq_impl_fneg F hF x y tol
  · intro F hF v tol
    unfold almost_zero_with
    rw [abs_fneg F hF v]

/-- Witness for C10: sign invariance at `(1.0, +inf)` under the default
tolerance (exercising the rescale path) and at `v = EPSILON_32`. -/
theorem claim10_witness :
    goodF F64 ∧
      (eq_with_tol_impl F64 (fneg F64 (1023 * 2 ^ 52)) (fneg F64 (INFINITY_BITS F64))
          F64_TOLERANCE
        = eq_with_tol_impl F64 (1023 * 2 ^ 52) (INFINITY_BITS F64) F64_TOLERANCE) ∧
      (almost_zero_with F32 (fneg F32 EPSILON_32_BITS) F32_TOLERANCE
        = almost_zero_with F32 EPSILON_32_BITS F32_TOLERANCE) :=
  ⟨goodF_F64,
    claim10_sign_invariance.1 F64 goodF_F64 (1023 * 2 ^ 52) (INFINITY_BITS F64)
      F64_TOLERANCE,
    claim10_sign_invariance.2 F32 goodF_F32 EPSILON_32_BITS F32_TOLERANCE⟩

/-- Witness for C9: with fuel 7 the comparison of `MAX` and `+inf` agrees
with the fuel-2 entry point, and the concrete rescaled pair for
`(+inf, 1.0)` is finite. -/
theorem claim9_witness :
    goodF F64 ∧
      eq_with_tol_fuel F64 (2 + 5) (MAX_BITS F64) (INFINITY_BITS F64) F64_TOLERANCE
        = eq_with_tol_impl F64 (MAX_BITS F64) (INFINITY_BITS F64) F64_TOLERANCE ∧
      (isFinb F64 (rescaled_lhs F64 (INFINITY_BITS F64)) = true ∧
        isFinb F64 (fmul F64 (1023 * 2 ^ 52) (RHS_RESCALE_BITS F64)) = true) :=
  ⟨goodF_F64,
    claim9_bounded_recursion.1 F64 goodF_F64 (MAX_BITS F64) (INFINITY_BITS F64)
      F64_TOLERANCE 5,
    claim9_bounded_recursion.2 F64 goodF_F64 (INFINITY_BITS F64) (1023 * 2 ^ 52)
      (by decide) (by decide) (by decide)⟩

end Almost
